import Mathlib

/-!
# ghedit: clone, checkout, regex-replace, commit, push

A shallow embedding of `cmd/root.go` and `pkg/github/github.go`.

* The operating system (filesystem, working directory, `git` subprocesses) is
  a parameter `Sys FS`: every system call of the source is a field whose
  result is decided by the environment, so a theorem that quantifies over
  `sys` holds for every behaviour of the filesystem and of `git`.
* Go's `regexp` package is a parameter `RegexpLib`. `goRegexp` builds it from
  a matching engine and the replacement loop of the package; the engine is a
  parameter too.
* A `World` carries the filesystem, the process's working directory and the
  trace of observable events of the run.
* `log.Fatal` / `log.Fatalf` print and call `os.Exit(1)`: the process ends at
  once and deferred calls do not run.
-/

namespace GithubEditor

/-- Text of a Go `error`. -/
abbrev Err := String

/-- What `os.Stat` reports, as far as `os.IsNotExist` can tell it apart. -/
inductive StatResult
  | found
  | notExist
  | otherError
  deriving DecidableEq, Repr

/-- The five failable method calls of `rootCmd.Run`, in source order. -/
inductive Step
  | clone
  | checkout
  | regexReplace
  | commit
  | push
  deriving DecidableEq, Repr

/-- Observable events of a run. `ok` records whether the call returned no
error. `stepReturned` is the one bookkeeping event: it records that a method
call made by `rootCmd.Run` has returned. -/
inductive Event
  | log (msg : String)
  | mkdirTemp (dir : String) (ok : Bool)
  | stat (path : String) (r : StatResult)
  | chdir (path : String) (ok : Bool)
  | exec (argv : List String) (ok : Bool)
  | readFile (path : String) (ok : Bool)
  | writeFile (path : String) (content : String) (ok : Bool)
  | removeAll (path : String) (ok : Bool)
  | stepReturned (s : Step) (ok : Bool)
  | exit (code : Nat)
  deriving DecidableEq, Repr

/-- The environment of the process. Each field is one system call used by the
source; its arguments are the filesystem state, the working directory, and
the call's own arguments. -/
structure Sys (FS : Type) where
  /-- Go: `os.MkdirTemp(dir, pattern)` -/
  mkdirTemp : FS → String → String → Except Err String × FS
  /-- Go: `os.Stat(path)` -/
  stat : FS → String → String → StatResult
  /-- Go: `os.Chdir(path)`: the new working directory, or an error -/
  chdir : FS → String → String → Except Err String
  /-- Go: `exec.Command(argv...).Run()` -/
  exec : FS → String → List String → Option Err × FS
  /-- Go: `ioutil.ReadFile(path)` -/
  readFile : FS → String → String → Except Err String
  /-- Go: `ioutil.WriteFile(path, content, 0644)` -/
  writeFile : FS → String → String → String → Option Err × FS
  /-- Go: `os.RemoveAll(path)` -/
  removeAll : FS → String → String → Option Err × FS

/-- Go's `regexp` package as used by the source: `regexp.Compile` and
`(*Regexp).ReplaceAllString`. -/
structure RegexpLib where
  Regexp : Type
  compile : String → Except Err Regexp
  replaceAllString : Regexp → String → String → String

/-- State of the process and of the machine it runs on. -/
structure World (FS : Type) where
  fs : FS
  cwd : String
  trace : List Event
  deriving DecidableEq, Repr

/-- A process that has just started: nothing observed yet. -/
def World.init {FS : Type} (fs : FS) (cwd : String) : World FS :=
  { fs := fs, cwd := cwd, trace := [] }

/-- Append events to the trace. -/
def World.emit {FS : Type} (w : World FS) (evs : List Event) : World FS :=
  { w with trace := w.trace ++ evs }

/-- How a routine that may end the process came back. -/
inductive Outcome
  | returned
  | exited (code : Nat)
  deriving DecidableEq, Repr

/-- Go: `log.Fatal(msg)`: print, then `os.Exit(1)`. -/
def logFatal {FS : Type} (msg : String) (w : World FS) : Outcome × World FS :=
  (Outcome.exited 1, w.emit [Event.log msg, Event.exit 1])

/-- The package-level flag variables of `cmd/root.go`. -/
structure Config where
  githubRepo : String
  branch : String
  file : String
  regEx : String
  valueToUpdate : String
  token : String
  deriving DecidableEq, Repr

/-- Source: `type GitHubWrapper struct` -/
structure GitHubWrapper where
  ClonePath : String
  Token : String
  Username : String
  deriving DecidableEq, Repr

/-! ## cmd/root.go -/

/-- Source: `func ValidateConfig()` -/
def ValidateConfig {FS : Type} (cfg : Config) (w : World FS) : Outcome × World FS :=
  if cfg.githubRepo = "" then
    logFatal "Error: Github repository (--repo) is required." w
  else if cfg.branch = "" then
    logFatal "Error: Branch (--branch) is required." w
  else if cfg.file = "" then
    logFatal "Error: File (--file) to modify is required." w
  else
    let w1 := if cfg.regEx = "" then
      w.emit [Event.log "Warning: No regex pattern provided (--regEx). Proceeding without regex substitution."]
      else w
    let w2 := if cfg.valueToUpdate = "" then
      w1.emit [Event.log "Warning: No value to update provided (--val). Proceeding without replacing values."]
      else w1
    (Outcome.returned, w2.emit [Event.log "Configuration validation completed successfully."])

/-- Source: `func initConfig()`: validation, then the configuration is logged
(colour codes and column padding of the log lines are left out). -/
def initConfig {FS : Type} (cfg : Config) (w : World FS) : Outcome × World FS :=
  match ValidateConfig cfg w with
  | (Outcome.exited c, w1) => (Outcome.exited c, w1)
  | (Outcome.returned, w1) =>
    (Outcome.returned, w1.emit
      [ Event.log "Initializing the config",
        Event.log "----------------------------------",
        Event.log ("Github Repo : " ++ cfg.githubRepo),
        Event.log ("Branch      : " ++ cfg.branch),
        Event.log ("File        : " ++ cfg.file),
        Event.log ("Regex       : " ++ cfg.regEx),
        Event.log ("Value       : " ++ cfg.valueToUpdate),
        Event.log "----------------------------------" ])

/-! ## pkg/github/github.go -/

/-- Source: `func NewGitHubWrapper(token, username string) (*GitHubWrapper, error)` -/
def NewGitHubWrapper {FS : Type} (sys : Sys FS) (token username : String) (w : World FS) :
    (GitHubWrapper × Option Err) × World FS :=
  match sys.mkdirTemp w.fs "" "gh_clone_" with
  | (Except.error e, fs1) =>
    (({ ClonePath := "", Token := "", Username := "" }, some e),
      { w with fs := fs1, trace := w.trace ++ [Event.mkdirTemp "" false, Event.log "TEMP "] })
  | (Except.ok tempDir, fs1) =>
    (({ ClonePath := tempDir, Token := token, Username := username }, none),
      { w with fs := fs1,
               trace := w.trace ++ [Event.mkdirTemp tempDir true, Event.log ("TEMP " ++ tempDir)] })

/-- The `git clone` command line built by `Clone`. -/
def cloneArgv (gh : GitHubWrapper) (repo : String) : List String :=
  ["git", "clone", "https://" ++ gh.Username ++ ":" ++ gh.Token ++ "@" ++ repo, gh.ClonePath]

/-- Source: `func (ghw *GitHubWrapper) Clone(repo string) error` -/
def Clone {FS : Type} (sys : Sys FS) (gh : GitHubWrapper) (repo : String) (w : World FS) :
    Option Err × World FS :=
  let repoWithToken := "https://" ++ gh.Username ++ ":" ++ gh.Token ++ "@" ++ repo
  let st := sys.stat w.fs w.cwd repo
  let w1 := w.emit [Event.log ("repoWithToken " ++ repoWithToken), Event.stat repo st]
  if st = StatResult.notExist then
    match sys.exec w1.fs w1.cwd ["git", "clone", repoWithToken, gh.ClonePath] with
    | (some e, fs2) =>
      (some ("failed to clone repository: " ++ e),
        { w1 with fs := fs2,
                  trace := w1.trace ++ [Event.exec ["git", "clone", repoWithToken, gh.ClonePath] false] })
    | (none, fs2) =>
      (none,
        { w1 with fs := fs2,
                  trace := w1.trace ++ [Event.exec ["git", "clone", repoWithToken, gh.ClonePath] true] })
  else
    (none, w1)

/-- Source: `func (ghw *GitHubWrapper) Checkout(branch string) error` -/
def Checkout {FS : Type} (sys : Sys FS) (gh : GitHubWrapper) (branch : String) (w : World FS) :
    Option Err × World FS :=
  match sys.chdir w.fs w.cwd gh.ClonePath with
  | Except.error e =>
    (some ("failed to change directory to " ++ gh.ClonePath ++ ": " ++ e),
      w.emit [Event.chdir gh.ClonePath false])
  | Except.ok dir =>
    let w1 : World FS := { w with cwd := dir, trace := w.trace ++ [Event.chdir gh.ClonePath true] }
    match sys.exec w1.fs w1.cwd ["git", "checkout", branch] with
    | (some e, fs2) =>
      (some ("failed to checkout branch " ++ branch ++ ": " ++ e),
        { w1 with fs := fs2, trace := w1.trace ++ [Event.exec ["git", "checkout", branch] false] })
    | (none, fs2) =>
      (none, { w1 with fs := fs2, trace := w1.trace ++ [Event.exec ["git", "checkout", branch] true] })

/-- Source: `func (ghw *GitHubWrapper) GetClonePath() string` -/
def GetClonePath (gh : GitHubWrapper) : String :=
  gh.ClonePath

/-- Source: `func (ghw *GitHubWrapper) DeleteRepo()` -/
def DeleteRepo {FS : Type} (sys : Sys FS) (gh : GitHubWrapper) (w : World FS) : Outcome × World FS :=
  let w1 := w.emit [Event.log ("removing the repo:  " ++ gh.ClonePath)]
  match sys.removeAll w1.fs w1.cwd gh.ClonePath with
  | (some e, fs2) =>
    logFatal ("Failed to remove directory: " ++ e)
      { w1 with fs := fs2, trace := w1.trace ++ [Event.removeAll gh.ClonePath false] }
  | (none, fs2) =>
    (Outcome.returned, { w1 with fs := fs2, trace := w1.trace ++ [Event.removeAll gh.ClonePath true] })

/-- Source: `func (ghw *GitHubWrapper) MakeRegexReplace(file, regEx, valueToUpdate string) error` -/
def MakeRegexReplace {FS : Type} (lib : RegexpLib) (sys : Sys FS) (gh : GitHubWrapper)
    (file regEx valueToUpdate : String) (w : World FS) : Option Err × World FS :=
  let filePath := gh.ClonePath ++ "/" ++ file
  match sys.readFile w.fs w.cwd filePath with
  | Except.error e =>
    (some ("error reading file " ++ filePath ++ ": " ++ e), w.emit [Event.readFile filePath false])
  | Except.ok content =>
    let w1 := w.emit [Event.readFile filePath true]
    match lib.compile regEx with
    | Except.error e =>
      (some ("error compiling regex " ++ regEx ++ ": " ++ e), w1)
    | Except.ok re =>
      let newContent := lib.replaceAllString re content valueToUpdate
      match sys.writeFile w1.fs w1.cwd filePath newContent with
      | (some e, fs2) =>
        (some ("error writing to file " ++ filePath ++ ": " ++ e),
          { w1 with fs := fs2, trace := w1.trace ++ [Event.writeFile filePath newContent false] })
      | (none, fs2) =>
        (none,
          { w1 with fs := fs2,
                    trace := w1.trace ++
                      [ Event.writeFile filePath newContent true,
                        Event.log ("Successfully replaced occurrences of '" ++ regEx ++
                          "' in file '" ++ filePath ++ "'.") ] })

/-- Source: `func (ghw *GitHubWrapper) Commit(message string) error` -/
def Commit {FS : Type} (sys : Sys FS) (gh : GitHubWrapper) (message : String) (w : World FS) :
    Option Err × World FS :=
  match sys.chdir w.fs w.cwd gh.ClonePath with
  | Except.error e =>
    (some ("failed to change directory to " ++ gh.ClonePath ++ ": " ++ e),
      w.emit [Event.chdir gh.ClonePath false])
  | Except.ok dir =>
    let w1 : World FS := { w with cwd := dir, trace := w.trace ++ [Event.chdir gh.ClonePath true] }
    match sys.exec w1.fs w1.cwd ["git", "add", "."] with
    | (some e, fs2) =>
      (some ("failed to stage changes: " ++ e),
        { w1 with fs := fs2, trace := w1.trace ++ [Event.exec ["git", "add", "."] false] })
    | (none, fs2) =>
      let w2 : World FS :=
        { w1 with fs := fs2, trace := w1.trace ++ [Event.exec ["git", "add", "."] true] }
      match sys.exec w2.fs w2.cwd ["git", "commit", "-m", message] with
      | (some e, fs3) =>
        (some ("failed to commit changes: " ++ e),
          { w2 with fs := fs3,
                    trace := w2.trace ++ [Event.exec ["git", "commit", "-m", message] false] })
      | (none, fs3) =>
        (none,
          { w2 with fs := fs3,
                    trace := w2.trace ++
                      [ Event.exec ["git", "commit", "-m", message] true,
                        Event.log ("Successfully committed changes with message: " ++ message) ] })

/-- Source: `func (ghw *GitHubWrapper) Push() error` -/
def Push {FS : Type} (sys : Sys FS) (gh : GitHubWrapper) (w : World FS) : Option Err × World FS :=
  match sys.chdir w.fs w.cwd gh.ClonePath with
  | Except.error e =>
    (some ("failed to change directory to " ++ gh.ClonePath ++ ": " ++ e),
      w.emit [Event.chdir gh.ClonePath false])
  | Except.ok dir =>
    let w1 : World FS := { w with cwd := dir, trace := w.trace ++ [Event.chdir gh.ClonePath true] }
    match sys.exec w1.fs w1.cwd ["git", "push", "origin", "HEAD"] with
    | (some e, fs2) =>
      (some ("failed to push changes: " ++ e),
        { w1 with fs := fs2, trace := w1.trace ++ [Event.exec ["git", "push", "origin", "HEAD"] false] })
    | (none, fs2) =>
      (none,
        { w1 with fs := fs2,
                  trace := w1.trace ++
                    [ Event.exec ["git", "push", "origin", "HEAD"] true,
                      Event.log "Successfully pushed changes to the remote repository." ] })

/-! ## cmd/root.go: the command -/

/-- The `Run` function of `rootCmd`. `defer gh.DeleteRepo()` runs when the
function returns; every `log.Fatal(err)` ends the process on the spot. -/
def Run {FS : Type} (lib : RegexpLib) (sys : Sys FS) (cfg : Config) (w : World FS) :
    Outcome × World FS :=
  match NewGitHubWrapper sys cfg.token "SrikanthBhandary" w with
  | ((_, some err), w0) => logFatal err w0
  | ((gh, none), w0) =>
    match Clone sys gh cfg.githubRepo w0 with
    | (some err, w1) => logFatal err (w1.emit [Event.stepReturned Step.clone false])
    | (none, w1) =>
      match Checkout sys gh cfg.branch (w1.emit [Event.stepReturned Step.clone true]) with
      | (some err, w2) => logFatal err (w2.emit [Event.stepReturned Step.checkout false])
      | (none, w2) =>
        match MakeRegexReplace lib sys gh cfg.file cfg.regEx cfg.valueToUpdate
            (w2.emit [ Event.stepReturned Step.checkout true,
                       Event.log ("Cloned repository to: " ++ GetClonePath gh) ]) with
        | (some err, w3) => logFatal err (w3.emit [Event.stepReturned Step.regexReplace false])
        | (none, w3) =>
          match Commit sys gh "Updated comments in file.go"
              (w3.emit [Event.stepReturned Step.regexReplace true]) with
          | (some err, w4) => logFatal err (w4.emit [Event.stepReturned Step.commit false])
          | (none, w4) =>
            match Push sys gh (w4.emit [Event.stepReturned Step.commit true]) with
            | (some err, w5) => logFatal err (w5.emit [Event.stepReturned Step.push false])
            | (none, w5) => DeleteRepo sys gh (w5.emit [Event.stepReturned Step.push true])

/-- Source: `func Execute()`: cobra runs the `OnInitialize` hook `initConfig` and then
`Run`; `Run` has no error result, so `rootCmd.Execute()` returns `nil`. -/
def Execute {FS : Type} (lib : RegexpLib) (sys : Sys FS) (cfg : Config) (w : World FS) :
    Outcome × World FS :=
  match initConfig cfg w with
  | (Outcome.exited c, w1) => (Outcome.exited c, w1)
  | (Outcome.returned, w1) => Run lib sys cfg w1

/-! ## Go's `regexp` package

The package is not part of the repository. What is modelled here is what the
source calls, `regexp.Compile` and `(*Regexp).ReplaceAllString`, with the loop
of `replaceAll` and the template expansion of `expand` written out. The
matcher itself is a parameter, `Engine`: for a compiled pattern, a text and a
position it tells whether the pattern matches there, where the match ends and
what the capture groups hold. What is proved for every `Engine` holds for every
pattern that compiles. Text is a list of Unicode characters: file contents are
taken to be valid UTF-8, and positions count characters. -/

/-- A matching engine behind Go's `regexp` package. `matchAt re src p` is the
match of the pattern that starts exactly at position `p` of `src`, as Go's
leftmost-first rule chooses it among the matches starting there: its end and
the spans of the capture groups 1, 2, ... (`none` for a group that took no
part). `subexpNames` lists the names of the groups, group 0 first.
`isLetterOrDigit` stands for `unicode.IsLetter(r) || unicode.IsDigit(r)` on
the runes outside ASCII. -/
structure Engine where
  Regexp : Type
  compile : String → Except Err Regexp
  matchAt : Regexp → List Char → Nat → Option (Nat × List (Option (Nat × Nat)))
  subexpNames : Regexp → List String
  isLetterOrDigit : Char → Bool
  matchAt_bounds : ∀ re src p e caps, matchAt re src p = some (e, caps) → p ≤ e ∧ e ≤ src.length

/-- The leftmost match among the `n` positions from `p` on: its start, its
end and its capture groups. -/
def findFrom (eng : Engine) (re : eng.Regexp) (src : List Char) :
    Nat → Nat → Option (Nat × Nat × List (Option (Nat × Nat)))
  | 0, _ => none
  | n + 1, p =>
    match eng.matchAt re src p with
    | some (e, caps) => some (p, e, caps)
    | none => findFrom eng re src n (p + 1)

/-- Go: `(*Regexp).doExecute` as `replaceAll` uses it: the leftmost match that
starts at `pos` or later, up to the end of the text. -/
def doExecute (eng : Engine) (re : eng.Regexp) (src : List Char) (pos : Nat) :
    Option (Nat × Nat × List (Option (Nat × Nat))) :=
  findFrom eng re src (src.length + 1 - pos) pos

/-- The position at which `replaceAll` looks for the next match after a match
that ended at `a1`: past the match, and at least one character further than
`searchPos`. -/
def nextSearchPos (src : List Char) (searchPos a1 : Nat) : Nat :=
  let width := if searchPos < src.length then 1 else 0
  if searchPos + width > a1 then searchPos + width
  else if searchPos + 1 > a1 then searchPos + 1
  else a1

/-- The loop of Go's `(*Regexp).replaceAll`; `fuel` bounds the number of
iterations, and `src.length + 1` is enough since `searchPos` grows. -/
def replaceLoop (eng : Engine) (re : eng.Regexp) (src : List Char)
    (repl : Nat × Nat × List (Option (Nat × Nat)) → List Char) :
    Nat → Nat → Nat → List Char → List Char
  | 0, lastMatchEnd, _, buf => buf ++ src.drop lastMatchEnd
  | fuel + 1, lastMatchEnd, searchPos, buf =>
    if searchPos ≤ src.length then
      match doExecute eng re src searchPos with
      | none => buf ++ src.drop lastMatchEnd
      | some (a0, a1, caps) =>
        let buf1 := buf ++ (src.drop lastMatchEnd).take (a0 - lastMatchEnd)
        let buf2 := if a1 > lastMatchEnd ∨ a0 = 0 then buf1 ++ repl (a0, a1, caps) else buf1
        replaceLoop eng re src repl fuel a1 (nextSearchPos src searchPos a1) buf2
    else buf ++ src.drop lastMatchEnd

/-- Go: `(*Regexp).replaceAll` -/
def replaceAll (eng : Engine) (re : eng.Regexp) (src : List Char)
    (repl : Nat × Nat × List (Option (Nat × Nat)) → List Char) : List Char :=
  replaceLoop eng re src repl (src.length + 1) 0 0 []

/-- The characters of a submatch name in a template: letters, digits and `_`. -/
def isNameRune (isLetterOrDigit : Char → Bool) (c : Char) : Bool :=
  c == '_' || (if c.toNat < 128 then c.isAlphanum else isLetterOrDigit c)

/-- The number a submatch name denotes, if it is one (no leading zero). -/
def parseNum (name : List Char) : Option Nat :=
  let num := name.foldl
    (fun acc c =>
      match acc with
      | none => none
      | some n =>
        if c < '0' ∨ '9' < c ∨ n ≥ 100000000 then none else some (n * 10 + (c.toNat - '0'.toNat)))
    (some 0)
  if name.head? = some '0' ∧ name.length > 1 then none else num

/-- Go's `extract`: the name after a `$`, bare or in braces, the number it
denotes if any, and the rest of the template. -/
def extract (isLetterOrDigit : Char → Bool) (str : List Char) :
    Option (List Char × Option Nat × List Char) :=
  match str with
  | [] => none
  | c0 :: tl =>
    let brace := c0 == '{'
    let str1 := if brace then tl else c0 :: tl
    let name := str1.takeWhile (isNameRune isLetterOrDigit)
    let after := str1.dropWhile (isNameRune isLetterOrDigit)
    if name = [] then none
    else if brace then
      match after with
      | [] => none
      | c :: rest => if c = '}' then some (name, parseNum name, rest) else none
    else some (name, parseNum name, after)

/-- The text of a span of `src`. -/
def spanText (src : List Char) (span : Nat × Nat) : List Char :=
  (src.drop span.1).take (span.2 - span.1)

/-- The text of group number `i` of a match, empty when the match has no such
group or the group took no part. -/
def numberedSubmatch (src : List Char) (groups : List (Option (Nat × Nat))) (i : Nat) :
    List Char :=
  match groups.get? i with
  | some (some span) => spanText src span
  | _ => []

/-- The text of the first group named `name` that took part in the match. -/
def namedSubmatch (src : List Char) : List String → List (Option (Nat × Nat)) → String → List Char
  | n :: names, g :: groups, name =>
    match g with
    | some span => if name = n then spanText src span else namedSubmatch src names groups name
    | none => namedSubmatch src names groups name
  | _, _, _ => []

/-- Go: `(*Regexp).expand`: the template with `$$` read as a dollar sign and
`$name`, `${name}` replaced by the text of that submatch; a `$` that starts no
such reference is kept as text. `groups` holds the span of the whole match
first, then the capture groups. `fuel` bounds the iterations; the length of
the template is enough. -/
def expand (eng : Engine) (re : eng.Regexp) (src : List Char)
    (groups : List (Option (Nat × Nat))) : Nat → List Char → List Char
  | 0, template => template
  | fuel + 1, template =>
    match template with
    | [] => []
    | c :: after =>
      if c = '$' then
        match after with
        | [] => ['$']
        | d :: rest =>
          if d = '$' then '$' :: expand eng re src groups fuel rest
          else
            match extract eng.isLetterOrDigit (d :: rest) with
            | none => '$' :: expand eng re src groups fuel (d :: rest)
            | some (name, num, rest1) =>
              (match num with
                | some i => numberedSubmatch src groups i
                | none => namedSubmatch src (eng.subexpNames re) groups (String.mk name)) ++
                expand eng re src groups fuel rest1
      else c :: expand eng re src groups fuel after

/-- Go: `(*Regexp).ReplaceAllString` -/
def ReplaceAllString (eng : Engine) (re : eng.Regexp) (src repl : String) : String :=
  String.mk (replaceAll eng re src.data
    (fun m => expand eng re src.data (some (m.1, m.2.1) :: m.2.2) repl.data.length repl.data))

/-- Go: `(*Regexp).MatchString`: does the text contain a match of the pattern. -/
def MatchString (eng : Engine) (re : eng.Regexp) (s : String) : Bool :=
  (doExecute eng re s.data 0).isSome

/-- The `regexp` package over a matching engine, as `MakeRegexReplace` uses it. -/
def goRegexp (eng : Engine) : RegexpLib :=
  { Regexp := eng.Regexp
    compile := eng.compile
    replaceAllString := ReplaceAllString eng }

/-- A template in which no `$` starts a reference: each `$` is the last
character or is followed neither by `$` nor by a name, bare or in braces. -/
def isLiteralTemplate (isLetterOrDigit : Char → Bool) : List Char → Bool
  | [] => true
  | c :: rest =>
    if c = '$' then
      (match rest with
        | [] => true
        | d :: _ => d != '$' && (extract isLetterOrDigit rest).isNone) &&
        isLiteralTemplate isLetterOrDigit rest
    else isLiteralTemplate isLetterOrDigit rest

/-! ## An engine for a fragment of the syntax

Patterns that are a sequence of single-character atoms (a literal, `.`, one of
the Perl classes `\d \D \w \W \s \S`, an escaped punctuation character), each
optionally followed by one greedy `*`, `+` or `?`, are matched here. A pattern
of these tokens that Go rejects (a repetition with nothing to repeat, a
repetition of a repetition, a trailing backslash) is rejected. Every other
pattern is handed to the engine `beyond`. Patterns of the fragment have no
capture groups. -/

/-- One character of a pattern: what it accepts. -/
inductive Atom
  | lit (c : Char)
  | anyNotNL
  | digit (negated : Bool)
  | word (negated : Bool)
  | space (negated : Bool)
  deriving DecidableEq, Repr

/-- The repetition put on an atom. -/
inductive Quant
  | one
  | star
  | plus
  | quest
  deriving DecidableEq, Repr

/-- An atom with its repetition. -/
structure Item where
  atom : Atom
  quant : Quant
  deriving DecidableEq, Repr

/-- A compiled pattern of the fragment: its items, in sequence. -/
structure Regexp where
  items : List Item
  deriving DecidableEq, Repr

/-- Does the atom accept the character. `.` excludes the newline, the Perl
classes are the ASCII ones. -/
def Atom.test : Atom → Char → Bool
  | Atom.lit c, x => x == c
  | Atom.anyNotNL, x => x != '\n'
  | Atom.digit neg, x => xor neg x.isDigit
  | Atom.word neg, x => xor neg (x.isAlphanum || x == '_')
  | Atom.space neg, x =>
    xor neg (x == '\t' || x == '\n' || x == Char.ofNat 12 || x == '\r' || x == ' ')

/-- Lexical element of a pattern; `outside` is syntax the fragment does not
cover. -/
inductive Tok
  | atom (a : Atom)
  | quant (q : Quant)
  | outside
  | trailingBackslash
  deriving DecidableEq, Repr

/-- The token for a backslash followed by `e`: a Perl class, or the escaped
punctuation character itself. -/
def escTok (e : Char) : Tok :=
  if e = 'd' then Tok.atom (Atom.digit false)
  else if e = 'D' then Tok.atom (Atom.digit true)
  else if e = 'w' then Tok.atom (Atom.word false)
  else if e = 'W' then Tok.atom (Atom.word true)
  else if e = 's' then Tok.atom (Atom.space false)
  else if e = 'S' then Tok.atom (Atom.space true)
  else if e.toNat < 128 && !e.isAlphanum then Tok.atom (Atom.lit e)
  else Tok.outside

/-- The token for an unescaped character. -/
def charTok (c : Char) : Tok :=
  if c = '.' then Tok.atom Atom.anyNotNL
  else if c = '*' then Tok.quant Quant.star
  else if c = '+' then Tok.quant Quant.plus
  else if c = '?' then Tok.quant Quant.quest
  else if c = '(' || c = ')' || c = '[' || c = ']' || c = '{' || c = '}' || c = '|' || c = '^' || c = '$'
  then Tok.outside
  else Tok.atom (Atom.lit c)

/-- Split a pattern into tokens. -/
def tokenize : List Char → List Tok
  | [] => []
  | c :: rest =>
    if c = '\\' then
      match rest with
      | [] => [Tok.trailingBackslash]
      | e :: rest2 => escTok e :: tokenize rest2
    else charTok c :: tokenize rest

/-- Does the pattern use syntax outside the fragment: a token of its own, or a
repetition followed by `?` (a lazy repetition). -/
def usesOutside : List Tok → Bool
  | [] => false
  | Tok.outside :: _ => true
  | Tok.quant _ :: rest =>
    (match rest with
      | Tok.quant Quant.quest :: _ => true
      | _ => false) || usesOutside rest
  | _ :: rest => usesOutside rest

/-- The repetition operator as the pattern writes it. -/
def Quant.text : Quant → String
  | Quant.one => ""
  | Quant.star => "*"
  | Quant.plus => "+"
  | Quant.quest => "?"

/-- Group the tokens of a pattern of the fragment into items: an atom and the
repetition that follows it. The errors are the ones Go's parser reports for
these patterns, the first one from the left: a repetition operator with
nothing before it, a repetition operator right after another one, a backslash
at the end. `Compile` hands a pattern with an `outside` token to the other
engine, so none gets here. -/
def buildItems : List Tok → Except Err (List Item)
  | [] => Except.ok []
  | Tok.outside :: _ => Except.error "unexpected token"
  | Tok.trailingBackslash :: _ => Except.error "trailing backslash at end of expression: ``"
  | Tok.quant q :: _ =>
    Except.error ("missing argument to repetition operator: `" ++ q.text ++ "`")
  | Tok.atom _ :: Tok.quant q1 :: Tok.quant q2 :: _ =>
    Except.error ("invalid nested repetition operator: `" ++ q1.text ++ q2.text ++ "`")
  | Tok.atom a :: Tok.quant q :: rest =>
    match buildItems rest with
    | Except.ok items => Except.ok ({ atom := a, quant := q } :: items)
    | Except.error e => Except.error e
  | Tok.atom a :: rest =>
    match buildItems rest with
    | Except.ok items => Except.ok ({ atom := a, quant := Quant.one } :: items)
    | Except.error e => Except.error e

/-- Greedy repetition: take as many characters accepted by `p` as possible,
giving them back one at a time until the rest of the pattern, `k`, matches. -/
def matchStar (p : Char → Bool) (k : List Char → Option Nat) : List Char → Option Nat
  | [] => k []
  | c :: cs =>
    if p c then
      match matchStar p k cs with
      | some n => some (n + 1)
      | none => k (c :: cs)
    else k (c :: cs)

/-- The match of the items at the very start of the text, as Go chooses it
(leftmost-first: every repetition prefers to take more): its length. -/
def matchItems : List Item → List Char → Option Nat
  | [] => fun _ => some 0
  | it :: rest => fun s =>
    match it.quant with
    | Quant.one =>
      match s with
      | [] => none
      | c :: cs => if it.atom.test c then (matchItems rest cs).map (· + 1) else none
    | Quant.quest =>
      match s with
      | [] => matchItems rest []
      | c :: cs =>
        if it.atom.test c then
          match matchItems rest cs with
          | some n => some (n + 1)
          | none => matchItems rest (c :: cs)
        else matchItems rest (c :: cs)
    | Quant.star => matchStar it.atom.test (matchItems rest) s
    | Quant.plus =>
      match s with
      | [] => none
      | c :: cs =>
        if it.atom.test c then (matchStar it.atom.test (matchItems rest) cs).map (· + 1) else none

/-- The match of a pattern of the fragment at position `p` of `src`. At a
position inside the text the length test never fails (`fragmentMatchAt_eq`); it
is there so that the bounds of the match can be read off the definition. -/
def fragmentMatchAt (re : Regexp) (src : List Char) (p : Nat) :
    Option (Nat × List (Option (Nat × Nat))) :=
  match matchItems re.items (src.drop p) with
  | some n => if p + n ≤ src.length then some (p + n, []) else none
  | none => none

/-- Go: `regexp.Compile`, for the engine that matches the fragment itself and
hands every other pattern to `beyond`. -/
def Compile (beyond : Engine) (expr : String) : Except Err (Regexp ⊕ beyond.Regexp) :=
  if usesOutside (tokenize expr.data) then
    match beyond.compile expr with
    | Except.ok re => Except.ok (Sum.inr re)
    | Except.error e => Except.error e
  else
    match buildItems (tokenize expr.data) with
    | Except.ok items => Except.ok (Sum.inl { items := items })
    | Except.error e => Except.error ("error parsing regexp: " ++ e)

/-- The engine that matches the patterns of the fragment itself and hands
every other pattern to `beyond`. -/
def withFragment (beyond : Engine) : Engine :=
  { Regexp := Regexp ⊕ beyond.Regexp
    compile := Compile beyond
    matchAt := fun re src p =>
      match re with
      | Sum.inl r => fragmentMatchAt r src p
      | Sum.inr r => beyond.matchAt r src p
    subexpNames := fun re =>
      match re with
      | Sum.inl _ => [""]
      | Sum.inr r => beyond.subexpNames r
    isLetterOrDigit := beyond.isLetterOrDigit
    matchAt_bounds := by
      intro re src p e caps h
      cases re with
      | inl r =>
        simp only [fragmentMatchAt] at h
        split at h
        · split at h
          · simp only [Option.some.injEq, Prod.mk.injEq] at h
            omega
          · simp at h
        · simp at h
      | inr r => exact beyond.matchAt_bounds r src p e caps h }

/-! ## What "every match is replaced" means

Written from the words of the specification, to compare `ReplaceAllString`
against. -/

/-- The text `src` from position `pos` on, in which each of the spans is
replaced by `repl` and every character outside the spans is kept, in order. -/
def spliceAt (src repl : List Char) : Nat → List (Nat × Nat) → List Char
  | pos, [] => src.drop pos
  | pos, (a0, a1) :: ms => (src.drop pos).take (a0 - pos) ++ repl ++ spliceAt src repl a1 ms

/-- The spans lie inside a text of length `len`, in order, without overlap,
starting no earlier than `pos`. -/
def SpansOrdered (len : Nat) : Nat → List (Nat × Nat) → Prop
  | _, [] => True
  | pos, (a0, a1) :: ms => pos ≤ a0 ∧ a0 ≤ a1 ∧ a1 ≤ len ∧ SpansOrdered len a1 ms

/-- The position `p`, where the pattern matches `n` characters, is accounted
for by the span: the span starts there, or `p` lies strictly inside it, or the
match at `p` is empty and directly follows the non-empty span. -/
def Covers (a : Nat × Nat) (p n : Nat) : Prop :=
  a.1 = p ∨ (a.1 < p ∧ p < a.2) ∨ (a.1 < p ∧ p = a.2 ∧ n = 0)

/-- The spans are exactly the leftmost non-overlapping matches of the pattern
in `src`: they are ordered and disjoint, each one is the pattern's match at its
start, every position at which the pattern matches is accounted for, and no
span is an empty match directly behind the span before it (the ends strictly
increase; Go's documentation: "empty matches abutting a preceding match are
ignored"). -/
def IsAllMatches (eng : Engine) (re : eng.Regexp) (src : List Char) (ms : List (Nat × Nat)) :
    Prop :=
  SpansOrdered src.length 0 ms ∧
  (∀ a ∈ ms, ∃ caps, eng.matchAt re src a.1 = some (a.2, caps)) ∧
  (∀ p e caps, p ≤ src.length → eng.matchAt re src p = some (e, caps) →
    ∃ a ∈ ms, Covers a p (e - p)) ∧
  ms.Pairwise (fun a b => a.2 < b.2)

/-- The spans `replaceAll` replaces, collected by the same walk over the text;
used to prove that they are all the matches. -/
def spanLoop (eng : Engine) (re : eng.Regexp) (src : List Char) :
    Nat → Nat → Nat → List (Nat × Nat)
  | 0, _, _ => []
  | fuel + 1, lastMatchEnd, searchPos =>
    if searchPos ≤ src.length then
      match doExecute eng re src searchPos with
      | none => []
      | some (a0, a1, _) =>
        if a1 > lastMatchEnd ∨ a0 = 0 then
          (a0, a1) :: spanLoop eng re src fuel a1 (nextSearchPos src searchPos a1)
        else spanLoop eng re src fuel a1 (nextSearchPos src searchPos a1)
    else []

/-- The spans `replaceAll` replaces in `src`. -/
def matchSpans (eng : Engine) (re : eng.Regexp) (src : List Char) : List (Nat × Nat) :=
  spanLoop eng re src (src.length + 1) 0 0

/-- Whether the pattern matches at a position depends only on the characters
matched: a text that holds, at `p2`, the characters of a match has a match at
`p2`. Patterns without anchors and word boundaries are of this kind. -/
def ContextFree (eng : Engine) (re : eng.Regexp) : Prop :=
  ∀ s1 p1 e1 caps s2 p2, eng.matchAt re s1 p1 = some (e1, caps) →
    p2 + (e1 - p1) ≤ s2.length →
    (s2.drop p2).take (e1 - p1) = (s1.drop p1).take (e1 - p1) →
    (eng.matchAt re s2 p2).isSome = true

/-- No match of the pattern, in any text, holds a character of an inserted
occurrence of `r` or reaches across the place where `r` was inserted: a match
in `x ++ r ++ y` ends within `x` or starts within `y`. -/
def Isolated (eng : Engine) (re : eng.Regexp) (r : List Char) : Prop :=
  ∀ x y p e caps, eng.matchAt re (x ++ r ++ y) p = some (e, caps) →
    e ≤ x.length ∨ x.length + r.length ≤ p

/-! ## A small simulated machine, for running the program on concrete inputs -/

/-- A filesystem with just enough behaviour to run the program: files,
directories, the files of the one remote repository, and the names of the
`git` subcommands that exit with a failure. -/
structure SimFS where
  files : List (String × String)
  dirs : List String
  remote : List (String × String)
  failing : List String
  deriving DecidableEq, Repr

/-- Look a file up by its path. -/
def lookupFile : List (String × String) → String → Option String
  | [], _ => none
  | (p, c) :: rest, q => if p = q then some c else lookupFile rest q

/-- Does `path` lie under the directory `dir`. -/
def isUnder (dir path : String) : Bool :=
  (dir.data ++ ['/']).isPrefixOf path.data

/-- The simulated machine. -/
def simSys : Sys SimFS :=
  { mkdirTemp := fun fs _ pat =>
      (Except.ok ("/tmp/" ++ pat ++ "1"), { fs with dirs := ("/tmp/" ++ pat ++ "1") :: fs.dirs })
    stat := fun fs _ path =>
      if path ∈ fs.dirs ∨ (lookupFile fs.files path).isSome then StatResult.found
      else StatResult.notExist
    chdir := fun fs _ path =>
      if path ∈ fs.dirs then Except.ok path else Except.error "no such file or directory"
    exec := fun fs _ argv =>
      match argv with
      | [_, "clone", _, dest] =>
        if "clone" ∈ fs.failing then (some "exit status 128", fs)
        else (none, { fs with files := fs.remote.map (fun f => (dest ++ "/" ++ f.1, f.2)) ++ fs.files })
      | _ :: sub :: _ => if sub ∈ fs.failing then (some "exit status 1", fs) else (none, fs)
      | _ => (some "exit status 1", fs)
    readFile := fun fs _ path =>
      match lookupFile fs.files path with
      | some c => Except.ok c
      | none => Except.error "no such file or directory"
    writeFile := fun fs _ path content =>
      (none, { fs with files := (path, content) :: fs.files.filter (fun f => f.1 != path) })
    removeAll := fun fs _ path =>
      (none, { fs with files := fs.files.filter (fun f => !isUnder path f.1)
                       dirs := fs.dirs.filter (fun d => d != path && !isUnder path d) }) }

/-- A machine whose remote repository holds one Go file with a linter comment. -/
def demoFS : SimFS :=
  { files := []
    dirs := ["/tmp", "/home/user"]
    remote := [("file.go", "x := 1 // linter:1234\n")]
    failing := [] }

/-- The same machine, on which the `git` subcommand `sub` exits with a failure. -/
def demoFailing (sub : String) : SimFS :=
  { demoFS with failing := [sub] }

/-- A command line as a user would give it. -/
def demoConfig : Config :=
  { githubRepo := "github.com/acme/tool"
    branch := "main"
    file := "file.go"
    regEx := "// linter:\\d+"
    valueToUpdate := "// linter:9999"
    token := "t0ken" }

/-- The workspace the simulated machine hands out. -/
def demoWrapper : GitHubWrapper :=
  { ClonePath := "/tmp/gh_clone_1", Token := "t0ken", Username := "SrikanthBhandary" }

/-- The simulated machine right after a successful clone and checkout, with
the file `file.go` holding `content`. -/
def demoCloned (content : String) : World SimFS :=
  World.init
    { files := [("/tmp/gh_clone_1/file.go", content)]
      dirs := ["/tmp/gh_clone_1", "/tmp", "/home/user"]
      remote := []
      failing := [] }
    "/tmp/gh_clone_1"

/-- An engine that knows no pattern. It stands behind the fragment in the
examples, whose patterns all lie in the fragment. -/
def noEngine : Engine :=
  { Regexp := Empty
    compile := fun _ => Except.error "pattern outside the example engine"
    matchAt := fun _ _ _ => none
    subexpNames := fun _ => []
    isLetterOrDigit := fun _ => false
    matchAt_bounds := by
      intro re
      exact re.elim }

/-- The engine of the examples: the fragment, and no pattern beyond it. What
it computes for a pattern of the fragment is what every engine behind the
fragment computes (`Compile_inside`, `withFragment_ReplaceAllString`). -/
def demoEngine : Engine :=
  withFragment noEngine

/-- A compiled pattern of the fragment, as the engine of the examples holds it. -/
def demoPattern (items : List Item) : demoEngine.Regexp :=
  Sum.inl { items := items }

/-! ## Reading traces -/

/-- The command lines of the subprocesses started, in order. -/
def execsOf : List Event → List (List String)
  | [] => []
  | Event.exec argv _ :: es => argv :: execsOf es
  | _ :: es => execsOf es

/-- The contents handed to `ioutil.WriteFile`, with their paths, in order. -/
def writesOf : List Event → List (String × String)
  | [] => []
  | Event.writeFile p c _ :: es => (p, c) :: writesOf es
  | _ :: es => writesOf es

/-- The paths handed to `os.RemoveAll`, in order. -/
def removesOf : List Event → List String
  | [] => []
  | Event.removeAll p _ :: es => p :: removesOf es
  | _ :: es => removesOf es

/-- The method calls of `Run` that returned, with whether they returned no error. -/
def stepsOf : List Event → List (Step × Bool)
  | [] => []
  | Event.stepReturned s ok :: es => (s, ok) :: stepsOf es
  | _ :: es => stepsOf es

/-- The system calls that touch the machine: everything but logging, the
bookkeeping event and the exit itself. -/
def sysCallsOf : List Event → List Event
  | [] => []
  | Event.log _ :: es => sysCallsOf es
  | Event.stepReturned _ _ :: es => sysCallsOf es
  | Event.exit _ :: es => sysCallsOf es
  | e :: es => e :: sysCallsOf es

/-- The paths handed to `ioutil.ReadFile`, with whether the read succeeded. -/
def readsOf : List Event → List (String × Bool)
  | [] => []
  | Event.readFile p ok :: es => (p, ok) :: readsOf es
  | _ :: es => readsOf es

/-- The command lines `Run` can start, in the order of the steps that start
them: `Clone`, `Checkout`, `Commit` (two), `Push`. -/
def gitCommands (gh : GitHubWrapper) (cfg : Config) : List (List String) :=
  [ cloneArgv gh cfg.githubRepo,
    ["git", "checkout", cfg.branch],
    ["git", "add", "."],
    ["git", "commit", "-m", "Updated comments in file.go"],
    ["git", "push", "origin", "HEAD"] ]

/-- C2: `ValidateConfig` ends the process (exit status 1) exactly when the
repository, the branch or the file is empty, whatever the pattern, the value
and the token are; it returns exactly when all three are non-empty. -/
theorem ValidateConfig_fatal_iff {FS : Type} (cfg : Config) (w : World FS) :
    ((ValidateConfig cfg w).1 = Outcome.exited 1 ↔
        (cfg.githubRepo = "" ∨ cfg.branch = "" ∨ cfg.file = "")) ∧
    ((ValidateConfig cfg w).1 = Outcome.returned ↔
        (cfg.githubRepo ≠ "" ∧ cfg.branch ≠ "" ∧ cfg.file ≠ "")) := by
  unfold ValidateConfig logFatal
  by_cases h1 : cfg.githubRepo = "" <;> by_cases h2 : cfg.branch = "" <;>
    by_cases h3 : cfg.file = "" <;> simp [h1, h2, h3]

/-! ### Traces of the single routines -/

theorem execsOf_append (xs ys : List Event) : execsOf (xs ++ ys) = execsOf xs ++ execsOf ys := by
  induction xs with
  | nil => rfl
  | cons e es ih => cases e <;> simp [execsOf, ih]

theorem writesOf_append (xs ys : List Event) :
    writesOf (xs ++ ys) = writesOf xs ++ writesOf ys := by
  induction xs with
  | nil => rfl
  | cons e es ih => cases e <;> simp [writesOf, ih]

theorem removesOf_append (xs ys : List Event) :
    removesOf (xs ++ ys) = removesOf xs ++ removesOf ys := by
  induction xs with
  | nil => rfl
  | cons e es ih => cases e <;> simp [removesOf, ih]

theorem stepsOf_append (xs ys : List Event) : stepsOf (xs ++ ys) = stepsOf xs ++ stepsOf ys := by
  induction xs with
  | nil => rfl
  | cons e es ih => cases e <;> simp [stepsOf, ih]

theorem readsOf_append (xs ys : List Event) : readsOf (xs ++ ys) = readsOf xs ++ readsOf ys := by
  induction xs with
  | nil => rfl
  | cons e es ih => cases e <;> simp [readsOf, ih]

theorem NewGitHubWrapper_frame {FS : Type} (sys : Sys FS) (token username : String)
    (w : World FS) :
    stepsOf (NewGitHubWrapper sys token username w).2.trace = stepsOf w.trace ∧
    execsOf (NewGitHubWrapper sys token username w).2.trace = execsOf w.trace ∧
    readsOf (NewGitHubWrapper sys token username w).2.trace = readsOf w.trace ∧
    writesOf (NewGitHubWrapper sys token username w).2.trace = writesOf w.trace ∧
    removesOf (NewGitHubWrapper sys token username w).2.trace = removesOf w.trace := by
  unfold NewGitHubWrapper
  rcases hm : sys.mkdirTemp w.fs "" "gh_clone_" with ⟨_ | _, fs1⟩ <;>
    simp [stepsOf_append, execsOf_append, readsOf_append, writesOf_append, removesOf_append,
      stepsOf, execsOf, readsOf, writesOf, removesOf]

theorem Clone_frame {FS : Type} (sys : Sys FS) (gh : GitHubWrapper) (repo : String)
    (w : World FS) :
    stepsOf (Clone sys gh repo w).2.trace = stepsOf w.trace ∧
    (∃ xs, execsOf (Clone sys gh repo w).2.trace = execsOf w.trace ++ xs ∧
      ∀ a ∈ xs, a = cloneArgv gh repo) ∧
    readsOf (Clone sys gh repo w).2.trace = readsOf w.trace ∧
    writesOf (Clone sys gh repo w).2.trace = writesOf w.trace ∧
    removesOf (Clone sys gh repo w).2.trace = removesOf w.trace := by
  unfold Clone
  by_cases hst : sys.stat w.fs w.cwd repo = StatResult.notExist
  · simp only [hst, if_true, World.emit]
    rcases hx : sys.exec w.fs w.cwd
        ["git", "clone", "https://" ++ gh.Username ++ ":" ++ gh.Token ++ "@" ++ repo, gh.ClonePath]
      with ⟨_ | _, fs2⟩ <;>
      simp [stepsOf_append, execsOf_append, readsOf_append, writesOf_append, removesOf_append,
        stepsOf, execsOf, readsOf, writesOf, removesOf, cloneArgv]
  · simp [hst, World.emit, stepsOf_append, execsOf_append, readsOf_append, writesOf_append,
      removesOf_append, stepsOf, execsOf, readsOf, writesOf, removesOf]

theorem Checkout_frame {FS : Type} (sys : Sys FS) (gh : GitHubWrapper) (branch : String)
    (w : World FS) :
    stepsOf (Checkout sys gh branch w).2.trace = stepsOf w.trace ∧
    (∃ xs, execsOf (Checkout sys gh branch w).2.trace = execsOf w.trace ++ xs ∧
      ∀ a ∈ xs, a = ["git", "checkout", branch]) ∧
    readsOf (Checkout sys gh branch w).2.trace = readsOf w.trace ∧
    writesOf (Checkout sys gh branch w).2.trace = writesOf w.trace ∧
    removesOf (Checkout sys gh branch w).2.trace = removesOf w.trace := by
  unfold Checkout
  rcases hc : sys.chdir w.fs w.cwd gh.ClonePath with _ | dir
  · simp [World.emit, stepsOf_append, execsOf_append, readsOf_append, writesOf_append,
      removesOf_append, stepsOf, execsOf, readsOf, writesOf, removesOf]
  · simp only []
    rcases hx : sys.exec w.fs dir ["git", "checkout", branch] with ⟨_ | _, fs2⟩ <;>
      simp [stepsOf_append, execsOf_append, readsOf_append, writesOf_append, removesOf_append,
        stepsOf, execsOf, readsOf, writesOf, removesOf]

theorem MakeRegexReplace_frame {FS : Type} (lib : RegexpLib) (sys : Sys FS) (gh : GitHubWrapper)
    (file regEx valueToUpdate : String) (w : World FS) :
    stepsOf (MakeRegexReplace lib sys gh file regEx valueToUpdate w).2.trace = stepsOf w.trace ∧
    execsOf (MakeRegexReplace lib sys gh file regEx valueToUpdate w).2.trace = execsOf w.trace ∧
    (∃ okr ws,
      readsOf (MakeRegexReplace lib sys gh file regEx valueToUpdate w).2.trace =
        readsOf w.trace ++ [(gh.ClonePath ++ "/" ++ file, okr)] ∧
      writesOf (MakeRegexReplace lib sys gh file regEx valueToUpdate w).2.trace =
        writesOf w.trace ++ ws ∧
      (okr = false → ws = []) ∧
      ((MakeRegexReplace lib sys gh file regEx valueToUpdate w).1 = none → okr = true)) ∧
    removesOf (MakeRegexReplace lib sys gh file regEx valueToUpdate w).2.trace =
      removesOf w.trace := by
  unfold MakeRegexReplace
  rcases hr : sys.readFile w.fs w.cwd (gh.ClonePath ++ "/" ++ file) with _ | content
  · simp [hr, World.emit, stepsOf_append, execsOf_append, readsOf_append, writesOf_append,
      removesOf_append, stepsOf, execsOf, readsOf, writesOf, removesOf]
  · simp only [hr]
    rcases hc : lib.compile regEx with _ | re
    · simp [World.emit, stepsOf_append, execsOf_append, readsOf_append, writesOf_append,
        removesOf_append, stepsOf, execsOf, readsOf, writesOf, removesOf]
    · simp only [World.emit]
      rcases hw : sys.writeFile w.fs w.cwd (gh.ClonePath ++ "/" ++ file)
          (lib.replaceAllString re content valueToUpdate) with ⟨_ | _, fs2⟩ <;>
        simp [hw, stepsOf_append, execsOf_append, readsOf_append, writesOf_append,
          removesOf_append, stepsOf, execsOf, readsOf, writesOf, removesOf]

theorem Commit_frame {FS : Type} (sys : Sys FS) (gh : GitHubWrapper) (message : String)
    (w : World FS) :
    stepsOf (Commit sys gh message w).2.trace = stepsOf w.trace ∧
    (∃ xs, execsOf (Commit sys gh message w).2.trace = execsOf w.trace ++ xs ∧
      ∀ a ∈ xs, a = ["git", "add", "."] ∨ a = ["git", "commit", "-m", message]) ∧
    readsOf (Commit sys gh message w).2.trace = readsOf w.trace ∧
    writesOf (Commit sys gh message w).2.trace = writesOf w.trace ∧
    removesOf (Commit sys gh message w).2.trace = removesOf w.trace := by
  unfold Commit
  rcases hc : sys.chdir w.fs w.cwd gh.ClonePath with _ | dir
  · simp [World.emit, stepsOf_append, execsOf_append, readsOf_append, writesOf_append,
      removesOf_append, stepsOf, execsOf, readsOf, writesOf, removesOf]
  · simp only []
    rcases hx : sys.exec w.fs dir ["git", "add", "."] with ⟨_ | _, fs2⟩
    · simp only []
      rcases hy : sys.exec fs2 dir ["git", "commit", "-m", message] with ⟨_ | _, fs3⟩ <;>
        simp [stepsOf_append, execsOf_append, readsOf_append, writesOf_append,
          removesOf_append, stepsOf, execsOf, readsOf, writesOf, removesOf]
    · simp [stepsOf_append, execsOf_append, readsOf_append, writesOf_append,
        removesOf_append, stepsOf, execsOf, readsOf, writesOf, removesOf]

theorem Push_frame {FS : Type} (sys : Sys FS) (gh : GitHubWrapper) (w : World FS) :
    stepsOf (Push sys gh w).2.trace = stepsOf w.trace ∧
    (∃ xs, execsOf (Push sys gh w).2.trace = execsOf w.trace ++ xs ∧
      ∀ a ∈ xs, a = ["git", "push", "origin", "HEAD"]) ∧
    readsOf (Push sys gh w).2.trace = readsOf w.trace ∧
    writesOf (Push sys gh w).2.trace = writesOf w.trace ∧
    removesOf (Push sys gh w).2.trace = removesOf w.trace := by
  unfold Push
  rcases hc : sys.chdir w.fs w.cwd gh.ClonePath with _ | dir
  · simp [World.emit, stepsOf_append, execsOf_append, readsOf_append, writesOf_append,
      removesOf_append, stepsOf, execsOf, readsOf, writesOf, removesOf]
  · simp only []
    rcases hx : sys.exec w.fs dir ["git", "push", "origin", "HEAD"] with ⟨_ | _, fs2⟩ <;>
      simp [stepsOf_append, execsOf_append, readsOf_append, writesOf_append, removesOf_append,
        stepsOf, execsOf, readsOf, writesOf, removesOf]

theorem DeleteRepo_frame {FS : Type} (sys : Sys FS) (gh : GitHubWrapper) (w : World FS) :
    stepsOf (DeleteRepo sys gh w).2.trace = stepsOf w.trace ∧
    execsOf (DeleteRepo sys gh w).2.trace = execsOf w.trace ∧
    readsOf (DeleteRepo sys gh w).2.trace = readsOf w.trace ∧
    writesOf (DeleteRepo sys gh w).2.trace = writesOf w.trace ∧
    removesOf (DeleteRepo sys gh w).2.trace = removesOf w.trace ++ [gh.ClonePath] ∧
    ((DeleteRepo sys gh w).1 = Outcome.returned ∨ (DeleteRepo sys gh w).1 = Outcome.exited 1) := by
  unfold DeleteRepo
  simp only [World.emit]
  rcases hx : sys.removeAll w.fs w.cwd gh.ClonePath with ⟨_ | _, fs2⟩ <;>
    simp [logFatal, World.emit, stepsOf_append, execsOf_append, readsOf_append, writesOf_append,
      removesOf_append, stepsOf, execsOf, readsOf, writesOf, removesOf]

/-- Every way `Run` can go, read off the trace of a run that starts with an
empty trace: which steps returned and how, which command lines were started,
what was read, written and removed, and how the process went on. -/
theorem Run_cases {FS : Type} (lib : RegexpLib) (sys : Sys FS) (cfg : Config) (fs : FS)
    (cwd : String) (r : Outcome × World FS) (hr : Run lib sys cfg (World.init fs cwd) = r) :
    (r.1 = Outcome.exited 1 ∧ stepsOf r.2.trace = [] ∧ execsOf r.2.trace = [] ∧
      readsOf r.2.trace = [] ∧ writesOf r.2.trace = [] ∧ removesOf r.2.trace = []) ∨
    ∃ gh : GitHubWrapper,
      (r.1 = Outcome.exited 1 ∧ stepsOf r.2.trace = [(Step.clone, false)] ∧
        (∀ a ∈ execsOf r.2.trace, a ∈ (gitCommands gh cfg).take 1) ∧
        readsOf r.2.trace = [] ∧ writesOf r.2.trace = [] ∧ removesOf r.2.trace = []) ∨
      (r.1 = Outcome.exited 1 ∧
        stepsOf r.2.trace = [(Step.clone, true), (Step.checkout, false)] ∧
        (∀ a ∈ execsOf r.2.trace, a ∈ (gitCommands gh cfg).take 2) ∧
        readsOf r.2.trace = [] ∧ writesOf r.2.trace = [] ∧ removesOf r.2.trace = []) ∨
      (r.1 = Outcome.exited 1 ∧
        stepsOf r.2.trace =
          [(Step.clone, true), (Step.checkout, true), (Step.regexReplace, false)] ∧
        (∀ a ∈ execsOf r.2.trace, a ∈ (gitCommands gh cfg).take 2) ∧
        (∃ okr, readsOf r.2.trace = [(gh.ClonePath ++ "/" ++ cfg.file, okr)] ∧
          (okr = false → writesOf r.2.trace = [])) ∧
        removesOf r.2.trace = []) ∨
      (r.1 = Outcome.exited 1 ∧
        stepsOf r.2.trace =
          [(Step.clone, true), (Step.checkout, true), (Step.regexReplace, true),
            (Step.commit, false)] ∧
        (∀ a ∈ execsOf r.2.trace, a ∈ (gitCommands gh cfg).take 4) ∧
        readsOf r.2.trace = [(gh.ClonePath ++ "/" ++ cfg.file, true)] ∧
        removesOf r.2.trace = []) ∨
      (r.1 = Outcome.exited 1 ∧
        stepsOf r.2.trace =
          [(Step.clone, true), (Step.checkout, true), (Step.regexReplace, true),
            (Step.commit, true), (Step.push, false)] ∧
        (∀ a ∈ execsOf r.2.trace, a ∈ gitCommands gh cfg) ∧
        readsOf r.2.trace = [(gh.ClonePath ++ "/" ++ cfg.file, true)] ∧
        removesOf r.2.trace = []) ∨
      ((r.1 = Outcome.returned ∨ r.1 = Outcome.exited 1) ∧
        stepsOf r.2.trace =
          [(Step.clone, true), (Step.checkout, true), (Step.regexReplace, true),
            (Step.commit, true), (Step.push, true)] ∧
        (∀ a ∈ execsOf r.2.trace, a ∈ gitCommands gh cfg) ∧
        readsOf r.2.trace = [(gh.ClonePath ++ "/" ++ cfg.file, true)] ∧
        removesOf r.2.trace = [gh.ClonePath]) := by
  subst hr
  unfold Run
  obtain ⟨ns, ne, nr, nw, nrm⟩ :=
    NewGitHubWrapper_frame sys cfg.token "SrikanthBhandary" (World.init fs cwd)
  rcases hN : NewGitHubWrapper sys cfg.token "SrikanthBhandary" (World.init fs cwd)
    with ⟨⟨gh, _ | e0⟩, w0⟩
  all_goals rw [hN] at ns ne nr nw nrm
  all_goals simp only [World.init, stepsOf, execsOf, readsOf, writesOf, removesOf] at ns ne nr nw nrm
  case some =>
    left
    simp [logFatal, World.emit, stepsOf_append, execsOf_append, readsOf_append, writesOf_append,
      removesOf_append, stepsOf, execsOf, readsOf, writesOf, removesOf, ns, ne, nr, nw, nrm]
  case none =>
    right
    refine ⟨gh, ?_⟩
    simp only []
    obtain ⟨cs, ⟨cx, cxe, cxa⟩, cr, cw, crm⟩ := Clone_frame sys gh cfg.githubRepo w0
    rcases hC : Clone sys gh cfg.githubRepo w0 with ⟨_ | e1, w1⟩
    all_goals rw [hC] at cs cxe cr cw crm
    all_goals simp only [ns, ne, nr, nw, nrm, List.nil_append] at cs cxe cr cw crm
    case some =>
      left
      simp [logFatal, World.emit, stepsOf_append, execsOf_append, readsOf_append, writesOf_append,
        removesOf_append, stepsOf, execsOf, readsOf, writesOf, removesOf, cs, cxe, cr, cw, crm,
        gitCommands]
      exact cxa
    case none =>
      right
      simp only []
      obtain ⟨ks, ⟨kx, kxe, kxa⟩, kr, kw, krm⟩ :=
        Checkout_frame sys gh cfg.branch (w1.emit [Event.stepReturned Step.clone true])
      rcases hK : Checkout sys gh cfg.branch (w1.emit [Event.stepReturned Step.clone true])
        with ⟨_ | e2, w2⟩
      all_goals rw [hK] at ks kxe kr kw krm
      all_goals simp only [World.emit, stepsOf_append, execsOf_append, readsOf_append,
        writesOf_append, removesOf_append, stepsOf, execsOf, readsOf, writesOf, removesOf,
        cs, cxe, cr, cw, crm, List.nil_append, List.append_nil] at ks kxe kr kw krm
      case some =>
        left
        simp [logFatal, World.emit, stepsOf_append, execsOf_append, readsOf_append,
          writesOf_append, removesOf_append, stepsOf, execsOf, readsOf, writesOf, removesOf,
          ks, kxe, kr, kw, krm, gitCommands]
        intro a ha
        rcases ha with ha | ha
        · exact Or.inl (cxa a ha)
        · exact Or.inr (kxa a ha)
      case none =>
        right
        simp only []
        obtain ⟨ms, me, ⟨okr, ws, mr, mw, mok, msucc⟩, mrm⟩ :=
          MakeRegexReplace_frame lib sys gh cfg.file cfg.regEx cfg.valueToUpdate
            (w2.emit [ Event.stepReturned Step.checkout true,
                       Event.log ("Cloned repository to: " ++ GetClonePath gh) ])
        rcases hM : MakeRegexReplace lib sys gh cfg.file cfg.regEx cfg.valueToUpdate
            (w2.emit [ Event.stepReturned Step.checkout true,
                       Event.log ("Cloned repository to: " ++ GetClonePath gh) ])
          with ⟨_ | e3, w3⟩
        all_goals rw [hM] at ms me mr mw mrm msucc
        all_goals simp only [World.emit, stepsOf_append, execsOf_append, readsOf_append,
          writesOf_append, removesOf_append, stepsOf, execsOf, readsOf, writesOf, removesOf,
          ks, kxe, kr, kw, krm, List.nil_append, List.append_nil] at ms me mr mw mrm msucc
        case some =>
          left
          simp [logFatal, World.emit, stepsOf_append, execsOf_append, readsOf_append,
            writesOf_append, removesOf_append, stepsOf, execsOf, readsOf, writesOf, removesOf,
            ms, me, mr, mw, mrm, gitCommands]
          refine ⟨?_, ?_⟩
          · intro a ha
            rcases ha with ha | ha
            · exact Or.inl (cxa a ha)
            · exact Or.inr (kxa a ha)
          · intro hokr
            exact mok hokr
        case none =>
          right
          have hokr : okr = true := msucc trivial
          subst hokr
          simp only []
          obtain ⟨gs, ⟨gx, gxe, gxa⟩, gr, gw, grm⟩ :=
            Commit_frame sys gh "Updated comments in file.go"
              (w3.emit [Event.stepReturned Step.regexReplace true])
          rcases hG : Commit sys gh "Updated comments in file.go"
              (w3.emit [Event.stepReturned Step.regexReplace true]) with ⟨_ | e4, w4⟩
          all_goals rw [hG] at gs gxe gr gw grm
          all_goals simp only [World.emit, stepsOf_append, execsOf_append, readsOf_append,
            writesOf_append, removesOf_append, stepsOf, execsOf, readsOf, writesOf, removesOf,
            ms, me, mr, mw, mrm, List.nil_append, List.append_nil] at gs gxe gr gw grm
          case some =>
            left
            simp [logFatal, World.emit, stepsOf_append, execsOf_append, readsOf_append,
              writesOf_append, removesOf_append, stepsOf, execsOf, readsOf, writesOf, removesOf,
              gs, gxe, gr, gw, grm, gitCommands]
            intro a ha
            rcases ha with ha | ha | ha
            · exact Or.inl (cxa a ha)
            · exact Or.inr (Or.inl (kxa a ha))
            · rcases gxa a ha with h | h
              · exact Or.inr (Or.inr (Or.inl h))
              · exact Or.inr (Or.inr (Or.inr h))
          case none =>
            right
            simp only []
            obtain ⟨ps, ⟨px, pxe, pxa⟩, pr, pw, prm⟩ :=
              Push_frame sys gh (w4.emit [Event.stepReturned Step.commit true])
            have hexecs : ∀ a ∈ cx ++ kx ++ gx ++ px, a ∈ gitCommands gh cfg := by
              intro a ha
              simp only [List.mem_append] at ha
              simp only [gitCommands, List.mem_cons, List.mem_singleton]
              rcases ha with ((ha | ha) | ha) | ha
              · exact Or.inl (cxa a ha)
              · exact Or.inr (Or.inl (kxa a ha))
              · rcases gxa a ha with h | h
                · exact Or.inr (Or.inr (Or.inl h))
                · exact Or.inr (Or.inr (Or.inr (Or.inl h)))
              · simp [pxa a ha]
            rcases hP : Push sys gh (w4.emit [Event.stepReturned Step.commit true])
              with ⟨_ | e5, w5⟩
            all_goals rw [hP] at ps pxe pr pw prm
            all_goals simp only [World.emit, stepsOf_append, execsOf_append, readsOf_append,
              writesOf_append, removesOf_append, stepsOf, execsOf, readsOf, writesOf, removesOf,
              gs, gxe, gr, gw, grm, List.nil_append, List.append_nil] at ps pxe pr pw prm
            case some =>
              left
              refine ⟨rfl, ?_, ?_, ?_, ?_⟩
              · simp [logFatal, World.emit, stepsOf_append, stepsOf, ps]
              · simp only [logFatal, World.emit, execsOf_append, execsOf, pxe, List.append_nil]
                exact hexecs
              · simp [logFatal, World.emit, readsOf_append, readsOf, pr]
              · simp [logFatal, World.emit, removesOf_append, removesOf, prm]
            case none =>
              right
              obtain ⟨ds, de, dr, dw, drm, dout⟩ :=
                DeleteRepo_frame sys gh (w5.emit [Event.stepReturned Step.push true])
              simp only [World.emit, stepsOf_append, execsOf_append, readsOf_append,
                writesOf_append, removesOf_append, stepsOf, execsOf, readsOf, writesOf,
                removesOf, ps, pxe, pr, pw, prm, List.append_nil, List.nil_append]
                at ds de dr dw drm dout
              simp only [World.emit]
              refine ⟨dout, ?_, ?_, dr, drm⟩
              · rw [ds]; simp
              · rw [de]; exact hexecs

/-- C3: whatever the regexp library, the machine, the workspace, the file and
the replacement are, if the pattern does not compile then `MakeRegexReplace`
returns an error, the filesystem is the one it started from, and the call adds
at most one event to the trace, the read of the target file: nothing is
written. -/
theorem MakeRegexReplace_compile_error {FS : Type} (lib : RegexpLib) (sys : Sys FS)
    (gh : GitHubWrapper) (file regEx valueToUpdate : String) (w : World FS) (e : Err)
    (hcompile : lib.compile regEx = Except.error e) :
    (MakeRegexReplace lib sys gh file regEx valueToUpdate w).1 ≠ none ∧
    (MakeRegexReplace lib sys gh file regEx valueToUpdate w).2.fs = w.fs ∧
    (∃ ok, (MakeRegexReplace lib sys gh file regEx valueToUpdate w).2.trace =
        w.trace ++ [Event.readFile (gh.ClonePath ++ "/" ++ file) ok]) ∧
    writesOf (MakeRegexReplace lib sys gh file regEx valueToUpdate w).2.trace =
      writesOf w.trace := by
  unfold MakeRegexReplace
  cases hr : sys.readFile w.fs w.cwd (gh.ClonePath ++ "/" ++ file) with
  | error e1 => simp [hr, World.emit, writesOf_append, writesOf]
  | ok content => simp [hr, hcompile, World.emit, writesOf_append, writesOf]

/-- C3 on the simulated machine: the pattern `*` has nothing to repeat, and
the file keeps its content. -/
theorem MakeRegexReplace_compile_error_witness :
    (goRegexp demoEngine).compile "*" =
        Except.error "error parsing regexp: missing argument to repetition operator: `*`" ∧
    ((MakeRegexReplace (goRegexp demoEngine) simSys demoWrapper "file.go" "*" "v"
        (demoCloned "abc")).1 ≠ none ∧
    (MakeRegexReplace (goRegexp demoEngine) simSys demoWrapper "file.go" "*" "v"
        (demoCloned "abc")).2.fs = (demoCloned "abc").fs ∧
    (∃ ok, (MakeRegexReplace (goRegexp demoEngine) simSys demoWrapper "file.go" "*" "v"
        (demoCloned "abc")).2.trace =
        (demoCloned "abc").trace ++ [Event.readFile (demoWrapper.ClonePath ++ "/" ++ "file.go") ok]) ∧
    writesOf (MakeRegexReplace (goRegexp demoEngine) simSys demoWrapper "file.go" "*" "v"
        (demoCloned "abc")).2.trace = writesOf (demoCloned "abc").trace) :=
  ⟨rfl, MakeRegexReplace_compile_error (goRegexp demoEngine) simSys demoWrapper "file.go" "*"
    "v" (demoCloned "abc") _ rfl⟩

/-- C10: `Clone` starts a process exactly when `os.Stat` of the repository
argument (looked up from the working directory) reports that the path does not
exist. Then it starts exactly one, `git clone https://<username>:<token>@<repo>
<ClonePath>`, and returns an error exactly when that process fails. Otherwise
it starts no process, returns no error and leaves the filesystem, hence the
workspace, as it was. -/
theorem Clone_error_iff {FS : Type} (sys : Sys FS) (gh : GitHubWrapper) (repo : String)
    (w : World FS) :
    ((Clone sys gh repo w).1 ≠ none ↔
      (sys.stat w.fs w.cwd repo = StatResult.notExist ∧
        (sys.exec w.fs w.cwd
          ["git", "clone", "https://" ++ gh.Username ++ ":" ++ gh.Token ++ "@" ++ repo,
            gh.ClonePath]).1 ≠ none)) ∧
    execsOf (Clone sys gh repo w).2.trace = execsOf w.trace ++
      (if sys.stat w.fs w.cwd repo = StatResult.notExist then
        [["git", "clone", "https://" ++ gh.Username ++ ":" ++ gh.Token ++ "@" ++ repo, gh.ClonePath]]
      else []) ∧
    (Clone sys gh repo w).2.fs =
      (if sys.stat w.fs w.cwd repo = StatResult.notExist then
        (sys.exec w.fs w.cwd
          ["git", "clone", "https://" ++ gh.Username ++ ":" ++ gh.Token ++ "@" ++ repo,
            gh.ClonePath]).2
      else w.fs) := by
  unfold Clone
  by_cases hst : sys.stat w.fs w.cwd repo = StatResult.notExist
  · simp only [hst, if_true, World.emit]
    cases hx : sys.exec w.fs w.cwd
        ["git", "clone", "https://" ++ gh.Username ++ ":" ++ gh.Token ++ "@" ++ repo, gh.ClonePath] with
    | mk r fs2 =>
      cases r <;> simp [hx, execsOf_append, execsOf]
  · simp [hst, World.emit, execsOf_append, execsOf]

/-- Whenever one of the five steps returns an error, `DeleteRepo` is not
executed: `os.RemoveAll` is never called in that run. -/
theorem Run_step_error_skips_DeleteRepo {FS : Type} (lib : RegexpLib) (sys : Sys FS)
    (cfg : Config) (fs : FS) (cwd : String) (s : Step)
    (herr : (s, false) ∈ stepsOf (Run lib sys cfg (World.init fs cwd)).2.trace) :
    removesOf (Run lib sys cfg (World.init fs cwd)).2.trace = [] := by
  rcases Run_cases lib sys cfg fs cwd _ rfl with h | ⟨gh, h | h | h | h | h | h⟩
  · exact h.2.2.2.2.2
  · exact h.2.2.2.2.2
  · exact h.2.2.2.2.2
  · exact h.2.2.2.2
  · exact h.2.2.2.2
  · exact h.2.2.2.2
  · rw [h.2.1] at herr
    simp at herr

/-- C1, at a run whose `git clone` fails: the process exits with status 1, the
temporary directory made by `NewGitHubWrapper` is still there, and
`os.RemoveAll` was never called. -/
theorem Run_clone_failure_keeps_workspace :
    (Run (goRegexp demoEngine) simSys demoConfig
        (World.init (demoFailing "clone") "/home/user")).1 = Outcome.exited 1 ∧
    "/tmp/gh_clone_1" ∈ (Run (goRegexp demoEngine) simSys demoConfig
        (World.init (demoFailing "clone") "/home/user")).2.fs.dirs ∧
    removesOf (Run (goRegexp demoEngine) simSys demoConfig
        (World.init (demoFailing "clone") "/home/user")).2.trace = [] := by
  decide

/-- C8, the claim as stated fails: with an empty branch name the `Checkout`
step does not fail, it is never called, and no `git` process is started. -/
theorem Execute_empty_branch_checkout_not_run :
    (Step.checkout, false) ∉
      stepsOf (Execute (goRegexp demoEngine) simSys { demoConfig with branch := "" }
        (World.init demoFS "/home/user")).2.trace ∧
    execsOf (Execute (goRegexp demoEngine) simSys { demoConfig with branch := "" }
        (World.init demoFS "/home/user")).2.trace = [] := by
  decide

/-- C8 as amended: with an empty branch name the command exits with status 1
during validation. Nothing but log lines is in the trace: no temporary
directory is made, no process is started, no file is read, written or
removed, no step is called, and filesystem and working directory are the ones
the process started with. -/
theorem Execute_empty_branch_stops_at_validation {FS : Type} (lib : RegexpLib) (sys : Sys FS)
    (cfg : Config) (fs : FS) (cwd : String) (hbranch : cfg.branch = "") :
    (Execute lib sys cfg (World.init fs cwd)).1 = Outcome.exited 1 ∧
    (Execute lib sys cfg (World.init fs cwd)).2.fs = fs ∧
    (Execute lib sys cfg (World.init fs cwd)).2.cwd = cwd ∧
    sysCallsOf (Execute lib sys cfg (World.init fs cwd)).2.trace = [] ∧
    stepsOf (Execute lib sys cfg (World.init fs cwd)).2.trace = [] := by
  unfold Execute initConfig ValidateConfig
  by_cases h1 : cfg.githubRepo = "" <;>
    simp [h1, hbranch, logFatal, World.emit, World.init, sysCallsOf, stepsOf]

/-- C8 as amended, on the simulated machine. -/
theorem Execute_empty_branch_stops_at_validation_witness :
    ({ demoConfig with branch := "" } : Config).branch = "" ∧
    ((Execute (goRegexp demoEngine) simSys { demoConfig with branch := "" }
        (World.init demoFS "/home/user")).1 = Outcome.exited 1 ∧
    (Execute (goRegexp demoEngine) simSys { demoConfig with branch := "" }
        (World.init demoFS "/home/user")).2.fs = demoFS ∧
    (Execute (goRegexp demoEngine) simSys { demoConfig with branch := "" }
        (World.init demoFS "/home/user")).2.cwd = "/home/user" ∧
    sysCallsOf (Execute (goRegexp demoEngine) simSys { demoConfig with branch := "" }
        (World.init demoFS "/home/user")).2.trace = [] ∧
    stepsOf (Execute (goRegexp demoEngine) simSys { demoConfig with branch := "" }
        (World.init demoFS "/home/user")).2.trace = []) :=
  ⟨rfl, Execute_empty_branch_stops_at_validation (goRegexp demoEngine) simSys
    { demoConfig with branch := "" } demoFS "/home/user" rfl⟩


/-! ### The matcher of the fragment -/

theorem matchStar_le (p : Char → Bool) (k : List Char → Option Nat)
    (hk : ∀ s n, k s = some n → n ≤ s.length) :
    ∀ s n, matchStar p k s = some n → n ≤ s.length := by
  intro s
  induction s with
  | nil =>
    intro n h
    exact hk [] n (by simpa [matchStar] using h)
  | cons c cs ih =>
    intro n h
    unfold matchStar at h
    by_cases hp : p c = true
    · simp only [hp, if_true] at h
      cases hm : matchStar p k cs with
      | none =>
        rw [hm] at h
        exact hk _ n h
      | some m =>
        rw [hm] at h
        have := ih m hm
        simp only [Option.some.injEq] at h
        simp only [List.length_cons]
        omega
    · simp only [hp] at h
      exact hk _ n (by simpa using h)

theorem matchItems_le : ∀ (items : List Item) (s : List Char) (n : Nat),
    matchItems items s = some n → n ≤ s.length := by
  intro items
  induction items with
  | nil =>
    intro s n h
    simp [matchItems] at h
    omega
  | cons it rest ih =>
    intro s n h
    unfold matchItems at h
    cases hq : it.quant with
    | one =>
      simp only [hq] at h
      cases s with
      | nil => simp at h
      | cons c cs =>
        by_cases ht : it.atom.test c = true
        · simp only [ht, if_true, Option.map_eq_some'] at h
          obtain ⟨m, hm, rfl⟩ := h
          have := ih cs m hm
          simp only [List.length_cons]
          omega
        · simp [ht] at h
    | star =>
      simp only [hq] at h
      exact matchStar_le _ _ (ih) s n h
    | plus =>
      simp only [hq] at h
      cases s with
      | nil => simp at h
      | cons c cs =>
        by_cases ht : it.atom.test c = true
        · simp only [ht, if_true, Option.map_eq_some'] at h
          obtain ⟨m, hm, rfl⟩ := h
          have := matchStar_le _ _ (ih) cs m hm
          simp only [List.length_cons]
          omega
        · simp [ht] at h
    | quest =>
      simp only [hq] at h
      cases s with
      | nil =>
        exact ih [] n h
      | cons c cs =>
        by_cases ht : it.atom.test c = true
        · simp only [ht, if_true] at h
          cases hm : matchItems rest cs with
          | none =>
            rw [hm] at h
            exact ih _ n h
          | some m =>
            rw [hm] at h
            have := ih cs m hm
            simp only [Option.some.injEq] at h
            simp only [List.length_cons]
            omega
        · simp only [ht] at h
          exact ih _ n (by simpa using h)

/-- At a position inside the text the length test of `fragmentMatchAt` never
fails: the match is the one `matchItems` finds. -/
theorem fragmentMatchAt_eq (re : Regexp) (src : List Char) (p : Nat) (hp : p ≤ src.length) :
    fragmentMatchAt re src p =
      (matchItems re.items (src.drop p)).map (fun n => (p + n, [])) := by
  unfold fragmentMatchAt
  cases hm : matchItems re.items (src.drop p) with
  | none => rfl
  | some n =>
    have hle := matchItems_le _ _ _ hm
    simp only [List.length_drop] at hle
    have : p + n ≤ src.length := by omega
    simp [this]

/-! ### The search for the leftmost match -/

theorem findFrom_some (eng : Engine) (re : eng.Regexp) (src : List Char) :
    ∀ (n p a0 a1 : Nat) (caps : List (Option (Nat × Nat))),
    findFrom eng re src n p = some (a0, a1, caps) →
    p ≤ a0 ∧ a0 < p + n ∧ eng.matchAt re src a0 = some (a1, caps) ∧
      ∀ q, p ≤ q → q < a0 → eng.matchAt re src q = none := by
  intro n
  induction n with
  | zero =>
    intro p a0 a1 caps h
    simp [findFrom] at h
  | succ n ih =>
    intro p a0 a1 caps h
    unfold findFrom at h
    cases hm : eng.matchAt re src p with
    | some r =>
      obtain ⟨e, c⟩ := r
      rw [hm] at h
      simp only [Option.some.injEq, Prod.mk.injEq] at h
      obtain ⟨rfl, rfl, rfl⟩ := h
      exact ⟨Nat.le_refl _, by omega, hm, by intro q h1 h2; omega⟩
    | none =>
      rw [hm] at h
      obtain ⟨h1, h2, h3, h4⟩ := ih (p + 1) a0 a1 caps h
      refine ⟨by omega, by omega, h3, ?_⟩
      intro q hq1 hq2
      by_cases hqp : q = p
      · rw [hqp]; exact hm
      · exact h4 q (by omega) hq2

theorem findFrom_none (eng : Engine) (re : eng.Regexp) (src : List Char) :
    ∀ (n p : Nat), findFrom eng re src n p = none →
    ∀ q, p ≤ q → q < p + n → eng.matchAt re src q = none := by
  intro n
  induction n with
  | zero =>
    intro p _ q h1 h2
    omega
  | succ n ih =>
    intro p h q h1 h2
    unfold findFrom at h
    cases hm : eng.matchAt re src p with
    | some r =>
      obtain ⟨e, c⟩ := r
      rw [hm] at h
      simp at h
    | none =>
      rw [hm] at h
      by_cases hqp : q = p
      · rw [hqp]; exact hm
      · exact ih (p + 1) h q (by omega) (by omega)

theorem doExecute_some (eng : Engine) (re : eng.Regexp) (src : List Char) (pos a0 a1 : Nat)
    (caps : List (Option (Nat × Nat))) (h : doExecute eng re src pos = some (a0, a1, caps)) :
    pos ≤ a0 ∧ a0 ≤ a1 ∧ a1 ≤ src.length ∧ eng.matchAt re src a0 = some (a1, caps) ∧
    ∀ p, pos ≤ p → p < a0 → eng.matchAt re src p = none := by
  unfold doExecute at h
  obtain ⟨h1, -, h3, h4⟩ := findFrom_some eng re src _ _ _ _ _ h
  obtain ⟨h5, h6⟩ := eng.matchAt_bounds re src a0 a1 caps h3
  exact ⟨h1, h5, h6, h3, h4⟩

theorem doExecute_none (eng : Engine) (re : eng.Regexp) (src : List Char) (pos : Nat)
    (h : doExecute eng re src pos = none) :
    ∀ p, pos ≤ p → p ≤ src.length → eng.matchAt re src p = none := by
  unfold doExecute at h
  intro p hp1 hp2
  exact findFrom_none eng re src _ _ h p hp1 (by omega)

theorem nextSearchPos_spec (src : List Char) (searchPos a1 : Nat) (h : searchPos ≤ a1) :
    nextSearchPos src searchPos a1 = if searchPos < a1 then a1 else searchPos + 1 := by
  unfold nextSearchPos
  by_cases hw : searchPos < src.length
  · simp only [hw, if_true]
    split_ifs <;> omega
  · simp only [hw, if_false]
    split_ifs <;> omega

/-! ### The replacement loop against the list of matches -/

theorem SpansOrdered_mono (len : Nat) (ms : List (Nat × Nat)) (p q : Nat) (hpq : p ≤ q)
    (h : SpansOrdered len q ms) : SpansOrdered len p ms := by
  cases ms with
  | nil => trivial
  | cons a ms =>
    obtain ⟨h1, h2, h3, h4⟩ := h
    exact ⟨by omega, h2, h3, h4⟩

theorem SpansOrdered_mem (len : Nat) : ∀ (ms : List (Nat × Nat)) (pos : Nat),
    SpansOrdered len pos ms → ∀ a ∈ ms, pos ≤ a.1 ∧ a.1 ≤ a.2 ∧ a.2 ≤ len := by
  intro ms
  induction ms with
  | nil =>
    intro pos _ a ha
    simp at ha
  | cons b ms ih =>
    intro pos h a ha
    obtain ⟨h1, h2, h3, h4⟩ := h
    simp only [List.mem_cons] at ha
    rcases ha with rfl | ha
    · exact ⟨h1, h2, h3⟩
    · have := ih b.2 h4 a ha
      exact ⟨by omega, this.2.1, this.2.2⟩

theorem replaceLoop_eq_splice (eng : Engine) (re : eng.Regexp) (src r : List Char) :
    ∀ (fuel lastMatchEnd searchPos : Nat) (buf : List Char), lastMatchEnd ≤ searchPos →
    replaceLoop eng re src (fun _ => r) fuel lastMatchEnd searchPos buf =
      buf ++ spliceAt src r lastMatchEnd (spanLoop eng re src fuel lastMatchEnd searchPos) := by
  intro fuel
  induction fuel with
  | zero =>
    intro L S buf _
    simp [replaceLoop, spanLoop, spliceAt]
  | succ fuel ih =>
    intro L S buf hLS
    unfold replaceLoop spanLoop
    by_cases hS : S ≤ src.length
    · simp only [hS, if_true]
      cases hx : doExecute eng re src S with
      | none => simp [spliceAt]
      | some a =>
        obtain ⟨a0, a1, caps⟩ := a
        obtain ⟨h1, h2, h3, -, -⟩ := doExecute_some eng re src S a0 a1 caps hx
        have hnext : a1 ≤ nextSearchPos src S a1 := by
          rw [nextSearchPos_spec src S a1 (by omega)]
          split_ifs <;> omega
        simp only []
        by_cases hacc : a1 > L ∨ a0 = 0
        · simp only [hacc, if_true]
          rw [ih a1 _ _ hnext]
          simp [spliceAt, List.append_assoc]
        · simp only [hacc, if_false]
          rw [ih a1 _ _ hnext]
          have hL : a1 = L := by omega
          have h0 : a0 - L = 0 := by omega
          simp [hL, h0]
    · simp [hS, spliceAt]

theorem spanLoop_ordered (eng : Engine) (re : eng.Regexp) (src : List Char) :
    ∀ (fuel lastMatchEnd searchPos : Nat),
    SpansOrdered src.length searchPos (spanLoop eng re src fuel lastMatchEnd searchPos) := by
  intro fuel
  induction fuel with
  | zero =>
    intro L S
    simp [spanLoop, SpansOrdered]
  | succ fuel ih =>
    intro L S
    unfold spanLoop
    by_cases hS : S ≤ src.length
    · simp only [hS, if_true]
      cases hx : doExecute eng re src S with
      | none => simp [SpansOrdered]
      | some a =>
        obtain ⟨a0, a1, caps⟩ := a
        obtain ⟨h1, h2, h3, -, -⟩ := doExecute_some eng re src S a0 a1 caps hx
        have hnext : a1 ≤ nextSearchPos src S a1 ∧ S ≤ nextSearchPos src S a1 := by
          rw [nextSearchPos_spec src S a1 (by omega)]
          split_ifs <;> omega
        simp only []
        by_cases hacc : a1 > L ∨ a0 = 0
        · simp only [hacc, if_true]
          exact ⟨h1, h2, h3, SpansOrdered_mono _ _ _ _ hnext.1 (ih a1 _)⟩
        · simp only [hacc, if_false]
          exact SpansOrdered_mono _ _ _ _ hnext.2 (ih a1 _)
    · simp [hS, SpansOrdered]

theorem spanLoop_matches (eng : Engine) (re : eng.Regexp) (src : List Char) :
    ∀ (fuel lastMatchEnd searchPos : Nat),
    ∀ a ∈ spanLoop eng re src fuel lastMatchEnd searchPos,
      ∃ caps, eng.matchAt re src a.1 = some (a.2, caps) := by
  intro fuel
  induction fuel with
  | zero =>
    intro L S a ha
    simp [spanLoop] at ha
  | succ fuel ih =>
    intro L S a ha
    unfold spanLoop at ha
    by_cases hS : S ≤ src.length
    · simp only [hS, if_true] at ha
      cases hx : doExecute eng re src S with
      | none => rw [hx] at ha; simp at ha
      | some b =>
        obtain ⟨a0, a1, caps⟩ := b
        obtain ⟨-, -, -, h4, -⟩ := doExecute_some eng re src S a0 a1 caps hx
        rw [hx] at ha
        simp only [] at ha
        by_cases hacc : a1 > L ∨ a0 = 0
        · simp only [hacc, if_true, List.mem_cons] at ha
          rcases ha with rfl | ha
          · exact ⟨caps, h4⟩
          · exact ih _ _ a ha
        · simp only [hacc, if_false] at ha
          exact ih _ _ a ha
    · simp [hS] at ha

theorem spanLoop_covers (eng : Engine) (re : eng.Regexp) (src : List Char) :
    ∀ (fuel lastMatchEnd searchPos : Nat), lastMatchEnd ≤ searchPos →
    src.length + 1 ≤ fuel + searchPos →
    ∀ p e caps, searchPos ≤ p → p ≤ src.length → eng.matchAt re src p = some (e, caps) →
      (∃ a ∈ spanLoop eng re src fuel lastMatchEnd searchPos, Covers a p (e - p)) ∨
      (p = searchPos ∧ lastMatchEnd = searchPos ∧ searchPos ≠ 0 ∧ e - p = 0) := by
  intro fuel
  induction fuel with
  | zero =>
    intro L S _ hfuel p e caps hp1 hp2 _
    omega
  | succ fuel ih =>
    intro L S hLS hfuel p e caps hp1 hp2 hm
    have hS : S ≤ src.length := by omega
    unfold spanLoop
    simp only [hS, if_true]
    cases hx : doExecute eng re src S with
    | none =>
      have := doExecute_none eng re src S hx p hp1 hp2
      rw [this] at hm
      simp at hm
    | some b =>
      obtain ⟨a0, a1, caps0⟩ := b
      obtain ⟨h1, h2, h3, h4, h5⟩ := doExecute_some eng re src S a0 a1 caps0 hx
      have ha0p : a0 ≤ p := by
        by_contra hlt
        have := h5 p hp1 (by omega)
        rw [this] at hm
        simp at hm
      have hnext := nextSearchPos_spec src S a1 (by omega)
      simp only []
      by_cases hacc : a1 > L ∨ a0 = 0
      · simp only [hacc, if_true]
        by_cases hpa0 : p = a0
        · left
          exact ⟨(a0, a1), List.mem_cons_self _ _, Or.inl hpa0.symm⟩
        · by_cases hpa1 : p < a1
          · left
            exact ⟨(a0, a1), List.mem_cons_self _ _, Or.inr (Or.inl ⟨by omega, hpa1⟩)⟩
          · have hge : nextSearchPos src S a1 ≤ p := by
              rw [hnext]; split_ifs <;> omega
            have hle : a1 ≤ nextSearchPos src S a1 := by
              rw [hnext]; split_ifs <;> omega
            have hf : src.length + 1 ≤ fuel + nextSearchPos src S a1 := by
              rw [hnext]; split_ifs <;> omega
            rcases ih a1 (nextSearchPos src S a1) hle hf p e caps hge hp2 hm with
              ⟨a, ha, hc⟩ | ⟨e1, e2, e3, e4⟩
            · left
              exact ⟨a, List.mem_cons_of_mem _ ha, hc⟩
            · left
              refine ⟨(a0, a1), List.mem_cons_self _ _, Or.inr (Or.inr ⟨by omega, ?_, e4⟩)⟩
              show p = a1
              omega
      · simp only [hacc, if_false]
        have hL : a1 = L ∧ a0 = S ∧ a1 = S ∧ S ≠ 0 := by omega
        by_cases hpS : p = S
        · right
          refine ⟨hpS, by omega, hL.2.2.2, ?_⟩
          have e0 : a0 = p := by omega
          rw [e0] at h4
          rw [h4] at hm
          simp only [Option.some.injEq, Prod.mk.injEq] at hm
          omega
        · have hge : nextSearchPos src S a1 ≤ p := by
            rw [hnext]; split_ifs <;> omega
          have hle : a1 ≤ nextSearchPos src S a1 := by
            rw [hnext]; split_ifs <;> omega
          have hf : src.length + 1 ≤ fuel + nextSearchPos src S a1 := by
            rw [hnext]; split_ifs <;> omega
          have hne : a1 ≠ nextSearchPos src S a1 := by
            rw [hnext]; split_ifs <;> omega
          rcases ih a1 (nextSearchPos src S a1) hle hf p e caps hge hp2 hm with
            ⟨a, ha, hc⟩ | ⟨e1, e2, e3, e4⟩
          · left
            exact ⟨a, ha, hc⟩
          · exact absurd e2 hne

theorem spanLoop_ends (eng : Engine) (re : eng.Regexp) (src : List Char) :
    ∀ (fuel lastMatchEnd searchPos : Nat), lastMatchEnd ≤ searchPos →
    ∀ b ∈ spanLoop eng re src fuel lastMatchEnd searchPos, lastMatchEnd < b.2 ∨ b.1 = 0 := by
  intro fuel
  induction fuel with
  | zero =>
    intro L S _ b hb
    simp [spanLoop] at hb
  | succ fuel ih =>
    intro L S hLS b hb
    unfold spanLoop at hb
    by_cases hS : S ≤ src.length
    · simp only [hS, if_true] at hb
      cases hx : doExecute eng re src S with
      | none => rw [hx] at hb; simp at hb
      | some a =>
        obtain ⟨a0, a1, caps⟩ := a
        obtain ⟨h1, h2, h3, -, -⟩ := doExecute_some eng re src S a0 a1 caps hx
        have hnext : a1 ≤ nextSearchPos src S a1 := by
          rw [nextSearchPos_spec src S a1 (by omega)]
          split_ifs <;> omega
        rw [hx] at hb
        simp only [] at hb
        by_cases hacc : a1 > L ∨ a0 = 0
        · simp only [hacc, if_true, List.mem_cons] at hb
          rcases hb with rfl | hb
          · exact hacc
          · rcases ih a1 _ hnext b hb with h | h
            · left; omega
            · right; exact h
        · simp only [hacc, if_false] at hb
          rcases ih a1 _ hnext b hb with h | h
          · left; omega
          · right; exact h
    · simp [hS] at hb

theorem spanLoop_strict (eng : Engine) (re : eng.Regexp) (src : List Char) :
    ∀ (fuel lastMatchEnd searchPos : Nat), lastMatchEnd ≤ searchPos →
    (spanLoop eng re src fuel lastMatchEnd searchPos).Pairwise (fun a b => a.2 < b.2) := by
  intro fuel
  induction fuel with
  | zero =>
    intro L S _
    simp [spanLoop]
  | succ fuel ih =>
    intro L S hLS
    unfold spanLoop
    by_cases hS : S ≤ src.length
    · simp only [hS, if_true]
      cases hx : doExecute eng re src S with
      | none => simp
      | some a =>
        obtain ⟨a0, a1, caps⟩ := a
        obtain ⟨h1, h2, h3, -, -⟩ := doExecute_some eng re src S a0 a1 caps hx
        have hnext : a1 ≤ nextSearchPos src S a1 ∧ S < nextSearchPos src S a1 := by
          rw [nextSearchPos_spec src S a1 (by omega)]
          split_ifs <;> omega
        simp only []
        by_cases hacc : a1 > L ∨ a0 = 0
        · simp only [hacc, if_true]
          refine List.Pairwise.cons ?_ (ih a1 _ hnext.1)
          intro b hb
          have hord := SpansOrdered_mem _ _ _
            (spanLoop_ordered eng re src fuel a1 (nextSearchPos src S a1)) b hb
          rcases spanLoop_ends eng re src fuel a1 _ hnext.1 b hb with h | h
          · exact h
          · omega
        · simp only [hacc, if_false]
          exact ih a1 _ hnext.1
    · simp [hS]

/-- The spans that `replaceAll` replaces are all the matches of the pattern. -/
theorem matchSpans_isAllMatches (eng : Engine) (re : eng.Regexp) (src : List Char) :
    IsAllMatches eng re src (matchSpans eng re src) := by
  refine ⟨spanLoop_ordered eng re src _ 0 0, spanLoop_matches eng re src _ 0 0, ?_,
    spanLoop_strict eng re src _ 0 0 (Nat.le_refl 0)⟩
  intro p e caps hp hm
  rcases spanLoop_covers eng re src (src.length + 1) 0 0 (Nat.le_refl 0) (by omega) p e caps
      (Nat.zero_le p) hp hm with h | ⟨-, -, h0, -⟩
  · exact h
  · exact absurd rfl h0

theorem expand_literal (eng : Engine) (re : eng.Regexp) (src : List Char)
    (groups : List (Option (Nat × Nat))) :
    ∀ (fuel : Nat) (template : List Char),
    isLiteralTemplate eng.isLetterOrDigit template = true →
    expand eng re src groups fuel template = template := by
  intro fuel
  induction fuel with
  | zero =>
    intro template _
    simp [expand]
  | succ fuel ih =>
    intro template h
    cases template with
    | nil => simp [expand]
    | cons c rest =>
      unfold isLiteralTemplate at h
      by_cases hc : c = '$'
      · simp only [hc, if_true, Bool.and_eq_true] at h
        obtain ⟨h1, h2⟩ := h
        cases rest with
        | nil => simp [expand, hc]
        | cons d rest2 =>
          simp only [Bool.and_eq_true, bne_iff_ne, ne_eq, Option.isNone_iff_eq_none] at h1
          obtain ⟨hd, hx⟩ := h1
          simp only [expand, hc, if_true, hd, if_false, hx]
          rw [ih (d :: rest2) h2]
      · simp only [hc, if_false] at h
        simp [expand, hc, ih rest h]

/-- Templates with a `$` that starts no reference are literal; `$$`, `$1`,
`$name` and `${name}` are not. -/
theorem isLiteralTemplate_examples :
    isLiteralTemplate demoEngine.isLetterOrDigit "x$".data = true ∧
    isLiteralTemplate demoEngine.isLetterOrDigit "$ 5".data = true ∧
    isLiteralTemplate demoEngine.isLetterOrDigit "$\x7ba".data = true ∧
    isLiteralTemplate demoEngine.isLetterOrDigit "$$".data = false ∧
    isLiteralTemplate demoEngine.isLetterOrDigit "$1".data = false ∧
    isLiteralTemplate demoEngine.isLetterOrDigit "$name".data = false ∧
    isLiteralTemplate demoEngine.isLetterOrDigit "a$\x7b1\x7db".data = false := by
  decide

theorem extract_rest_lt (isLetterOrDigit : Char → Bool) (str name rest : List Char)
    (num : Option Nat) (h : extract isLetterOrDigit str = some (name, num, rest)) :
    rest.length < str.length := by
  cases str with
  | nil => simp [extract] at h
  | cons c0 tl =>
    simp only [extract] at h
    by_cases hb : (c0 == '{') = true
    · simp only [hb, if_true] at h
      by_cases hn : List.takeWhile (isNameRune isLetterOrDigit) tl = []
      · simp [hn] at h
      · simp only [hn, if_false] at h
        cases hd : List.dropWhile (isNameRune isLetterOrDigit) tl with
        | nil => rw [hd] at h; simp at h
        | cons c r =>
          rw [hd] at h
          by_cases hc : c = '}'
          · simp only [hc, if_true, Option.some.injEq, Prod.mk.injEq] at h
            obtain ⟨-, -, rfl⟩ := h
            have hlen := congrArg List.length (List.takeWhile_append_dropWhile
              (isNameRune isLetterOrDigit) tl)
            rw [List.length_append, hd] at hlen
            simp only [List.length_cons] at hlen ⊢
            omega
          · simp [hc] at h
    · simp only [hb] at h
      by_cases hn : List.takeWhile (isNameRune isLetterOrDigit) (c0 :: tl) = []
      · simp [hn] at h
      · simp only [hn, if_false, Bool.false_eq_true, Option.some.injEq, Prod.mk.injEq] at h
        obtain ⟨-, -, rfl⟩ := h
        have hlen := congrArg List.length (List.takeWhile_append_dropWhile
          (isNameRune isLetterOrDigit) (c0 :: tl))
        rw [List.length_append] at hlen
        have hpos : 0 < (List.takeWhile (isNameRune isLetterOrDigit) (c0 :: tl)).length :=
          List.length_pos.mpr hn
        omega

/-- The fuel given to `expand` by `ReplaceAllString`, the length of the
template, is enough: more fuel gives the same expansion. -/
theorem expand_fuel_enough (eng : Engine) (re : eng.Regexp) (src : List Char)
    (groups : List (Option (Nat × Nat))) :
    ∀ (f1 f2 : Nat) (template : List Char), template.length ≤ f1 → template.length ≤ f2 →
    expand eng re src groups f1 template = expand eng re src groups f2 template := by
  intro f1
  induction f1 with
  | zero =>
    intro f2 template h1 _
    have : template = [] := List.length_eq_zero.mp (by omega)
    subst this
    cases f2 <;> simp [expand]
  | succ f1 ih =>
    intro f2 template h1 h2
    cases f2 with
    | zero =>
      have : template = [] := List.length_eq_zero.mp (by omega)
      subst this
      simp [expand]
    | succ f2 =>
      cases template with
      | nil => simp [expand]
      | cons c after =>
        simp only [List.length_cons] at h1 h2
        simp only [expand]
        by_cases hc : c = '$'
        · simp only [hc, if_true]
          cases after with
          | nil => rfl
          | cons d rest =>
            simp only [List.length_cons] at h1 h2
            by_cases hd : d = '$'
            · simp only [hd, if_true]
              rw [ih f2 rest (by omega) (by omega)]
            · simp only [hd, if_false]
              cases hx : extract eng.isLetterOrDigit (d :: rest) with
              | none =>
                simp only []
                rw [ih f2 (d :: rest) (by simp only [List.length_cons]; omega)
                  (by simp only [List.length_cons]; omega)]
              | some t =>
                obtain ⟨name, num, rest1⟩ := t
                have hlt := extract_rest_lt eng.isLetterOrDigit _ _ _ _ hx
                simp only [List.length_cons] at hlt
                simp only []
                rw [ih f2 rest1 (by omega) (by omega)]
        · simp only [hc, if_false]
          rw [ih f2 after (by omega) (by omega)]

/-- A pattern of the fragment is matched the same way whatever engine stands
behind the fragment. -/
theorem withFragment_findFrom (b1 b2 : Engine) (r : Regexp) (src : List Char) :
    ∀ (n p : Nat), findFrom (withFragment b1) (Sum.inl r) src n p =
      findFrom (withFragment b2) (Sum.inl r) src n p := by
  intro n
  induction n with
  | zero =>
    intro p
    rfl
  | succ n ih =>
    intro p
    unfold findFrom
    show (match fragmentMatchAt r src p with
      | some (e, caps) => some (p, e, caps)
      | none => findFrom (withFragment b1) (Sum.inl r) src n (p + 1)) =
      (match fragmentMatchAt r src p with
      | some (e, caps) => some (p, e, caps)
      | none => findFrom (withFragment b2) (Sum.inl r) src n (p + 1))
    rw [ih (p + 1)]

/-- The spans replaced for a pattern of the fragment do not depend on the
engine that stands behind the fragment. -/
theorem withFragment_matchSpans (b1 b2 : Engine) (r : Regexp) (src : List Char) :
    matchSpans (withFragment b1) (Sum.inl r) src = matchSpans (withFragment b2) (Sum.inl r) src := by
  unfold matchSpans
  generalize src.length + 1 = fuel
  generalize (0 : Nat) = L
  have key : ∀ (fuel L S : Nat), spanLoop (withFragment b1) (Sum.inl r) src fuel L S =
      spanLoop (withFragment b2) (Sum.inl r) src fuel L S := by
    intro fuel
    induction fuel with
    | zero =>
      intro L S
      rfl
    | succ fuel ih =>
      intro L S
      unfold spanLoop doExecute
      rw [withFragment_findFrom b1 b2 r src]
      by_cases hS : S ≤ src.length
      · simp only [hS, if_true]
        cases hx : findFrom (withFragment b2) (Sum.inl r) src (src.length + 1 - S) S with
        | none => rfl
        | some a =>
          obtain ⟨a0, a1, caps⟩ := a
          simp only [ih]
      · simp only [hS, if_false]
  exact key fuel L L

/-- A pattern without syntax from outside the fragment is compiled by the
fragment alone, whatever engine stands behind it. -/
theorem Compile_inside (beyond : Engine) (expr : String)
    (h : usesOutside (tokenize expr.data) = false) :
    Compile beyond expr =
      (match buildItems (tokenize expr.data) with
        | Except.ok items => Except.ok (Sum.inl { items := items })
        | Except.error e => Except.error ("error parsing regexp: " ++ e)) := by
  simp [Compile, h]

theorem withFragment_expand (b1 b2 : Engine) (h : b1.isLetterOrDigit = b2.isLetterOrDigit)
    (r : Regexp) (src : List Char) (groups : List (Option (Nat × Nat))) :
    ∀ (fuel : Nat) (template : List Char),
    expand (withFragment b1) (Sum.inl r) src groups fuel template =
      expand (withFragment b2) (Sum.inl r) src groups fuel template := by
  intro fuel
  induction fuel with
  | zero =>
    intro template
    rfl
  | succ fuel ih =>
    intro template
    have h1 : (withFragment b1).isLetterOrDigit = (withFragment b2).isLetterOrDigit := h
    have h2 : (withFragment b1).subexpNames (Sum.inl r) =
        (withFragment b2).subexpNames (Sum.inl r) := rfl
    unfold expand
    simp only [ih, h1, h2]

/-- For a pattern of the fragment `ReplaceAllString` gives the same text
whatever engine stands behind the fragment. -/
theorem withFragment_ReplaceAllString (b1 b2 : Engine)
    (h : b1.isLetterOrDigit = b2.isLetterOrDigit) (r : Regexp) (src repl : String) :
    ReplaceAllString (withFragment b1) (Sum.inl r) src repl =
      ReplaceAllString (withFragment b2) (Sum.inl r) src repl := by
  unfold ReplaceAllString replaceAll
  have hf : (fun m : Nat × Nat × List (Option (Nat × Nat)) =>
        expand (withFragment b1) (Sum.inl r) src.data (some (m.1, m.2.1) :: m.2.2)
          repl.data.length repl.data) =
      (fun m => expand (withFragment b2) (Sum.inl r) src.data (some (m.1, m.2.1) :: m.2.2)
          repl.data.length repl.data) := by
    funext m
    exact withFragment_expand b1 b2 h r src.data _ _ _
  rw [hf]
  have key : ∀ (f : Nat × Nat × List (Option (Nat × Nat)) → List Char)
      (fuel L S : Nat) (buf : List Char),
      replaceLoop (withFragment b1) (Sum.inl r) src.data f fuel L S buf =
        replaceLoop (withFragment b2) (Sum.inl r) src.data f fuel L S buf := by
    intro f fuel
    induction fuel with
    | zero =>
      intro L S buf
      rfl
    | succ fuel ih =>
      intro L S buf
      unfold replaceLoop doExecute
      rw [withFragment_findFrom b1 b2 r src.data]
      by_cases hS : S ≤ src.data.length
      · simp only [hS, if_true]
        cases hx : findFrom (withFragment b2) (Sum.inl r) src.data (src.data.length + 1 - S) S with
        | none => rfl
        | some a =>
          obtain ⟨a0, a1, caps⟩ := a
          simp only [ih]
      · simp only [hS, if_false]
  rw [key]

theorem ReplaceAllString_eq_splice (eng : Engine) (re : eng.Regexp) (content val : String)
    (hval : isLiteralTemplate eng.isLetterOrDigit val.data = true) :
    ReplaceAllString eng re content val =
      String.mk (spliceAt content.data val.data 0 (matchSpans eng re content.data)) := by
  unfold ReplaceAllString replaceAll matchSpans
  have hfun : (fun m : Nat × Nat × List (Option (Nat × Nat)) =>
        expand eng re content.data (some (m.1, m.2.1) :: m.2.2) val.data.length val.data) =
      (fun _ => val.data) := by
    funext m
    exact expand_literal eng re content.data _ _ _ hval
  rw [hfun, replaceLoop_eq_splice eng re content.data val.data _ 0 0 [] (Nat.le_refl 0)]
  simp

/-! ### The replace step -/

/-- C7, at the empty pattern: validation returns after the warning
"Proceeding without regex substitution", the empty pattern compiles, and the
replace step rewrites the file `a` as `XaX`, not as the content it read. -/
theorem empty_pattern_substitutes :
    (ValidateConfig { demoConfig with regEx := "", valueToUpdate := "X" }
        (World.init demoFS "/home/user")).1 = Outcome.returned ∧
    (ValidateConfig { demoConfig with regEx := "", valueToUpdate := "X" }
        (World.init demoFS "/home/user")).2.trace =
      [ Event.log
          "Warning: No regex pattern provided (--regEx). Proceeding without regex substitution.",
        Event.log "Configuration validation completed successfully." ] ∧
    demoEngine.compile "" = Except.ok (demoPattern []) ∧
    (MakeRegexReplace (goRegexp demoEngine) simSys demoWrapper "file.go" "" "X"
        (demoCloned "a")).1 = none ∧
    writesOf (MakeRegexReplace (goRegexp demoEngine) simSys demoWrapper "file.go" "" "X"
        (demoCloned "a")).2.trace = [("/tmp/gh_clone_1/file.go", "XaX")] ∧
    writesOf (MakeRegexReplace (goRegexp demoEngine) simSys demoWrapper "file.go" "" "X"
        (demoCloned "a")).2.trace ≠ [("/tmp/gh_clone_1/file.go", "a")] := by
  refine ⟨?_, ?_, rfl, ?_, ?_, ?_⟩ <;> decide

/-! ### Replacing twice -/

theorem take_drop_append_right (l1 l2 : List Char) (i n : Nat) (h : l1.length ≤ i) :
    ((l1 ++ l2).drop i).take n = (l2.drop (i - l1.length)).take n := by
  rw [List.drop_append_eq_append_drop, List.drop_eq_nil_of_le h, List.nil_append]

theorem take_drop_append_left (l1 l2 : List Char) (i n : Nat) (h : i + n ≤ l1.length) :
    ((l1 ++ l2).drop i).take n = (l1.drop i).take n := by
  rw [List.drop_append_of_le_length (by omega)]
  exact List.take_append_of_le_length (by simp only [List.length_drop]; omega)

theorem take_drop_take (l : List Char) (i n k : Nat) (h : i + n ≤ k) :
    ((l.take k).drop i).take n = (l.drop i).take n := by
  rw [List.drop_take, List.take_take]
  congr 1
  omega

theorem findFrom_eq_none (eng : Engine) (re : eng.Regexp) (src : List Char) :
    ∀ (n p : Nat), (∀ q, p ≤ q → q < p + n → eng.matchAt re src q = none) →
    findFrom eng re src n p = none := by
  intro n
  induction n with
  | zero =>
    intro p _
    rfl
  | succ n ih =>
    intro p h
    unfold findFrom
    rw [h p (Nat.le_refl p) (by omega)]
    exact ih (p + 1) (fun q h1 h2 => h q (by omega) (by omega))

/-- A pattern of which the replacement text holds no match, and whose matching
depends only on the characters matched, has no empty match. -/
theorem match_nonempty (eng : Engine) (re : eng.Regexp) (val : String)
    (hnomatch : MatchString eng re val = false) (hcf : ContextFree eng re)
    (s : List Char) (p e : Nat) (caps : List (Option (Nat × Nat)))
    (hm : eng.matchAt re s p = some (e, caps)) : p < e := by
  obtain ⟨h1, h2⟩ := eng.matchAt_bounds re s p e caps hm
  by_contra hlt
  have he : e - p = 0 := by omega
  have h := hcf s p e caps val.data 0 hm (by omega) (by simp [he])
  unfold MatchString at hnomatch
  have hx : doExecute eng re val.data 0 = none := by
    cases h0 : doExecute eng re val.data 0 with
    | none => rfl
    | some a => rw [h0] at hnomatch; simp at hnomatch
  rw [doExecute_none eng re val.data 0 hx 0 (Nat.le_refl 0) (Nat.zero_le _)] at h
  simp at h

/-- After the replacement no position of the new text holds a match: a match
there would lie in a stretch copied from the old text, where every match was
replaced, or would touch an inserted replacement. -/
theorem no_match_in_splice (eng : Engine) (re : eng.Regexp) (src : List Char) (val : String)
    (hnomatch : MatchString eng re val = false) (hcf : ContextFree eng re)
    (hiso : Isolated eng re val.data) :
    ∀ (ms : List (Nat × Nat)) (pos : Nat) (pre : List Char),
    SpansOrdered src.length pos ms →
    pos ≤ src.length →
    (∀ a ∈ ms, a.1 < a.2) →
    (∀ p e caps, pos ≤ p → p ≤ src.length → eng.matchAt re src p = some (e, caps) →
      ∃ a ∈ ms, a.1 = p ∨ (a.1 < p ∧ p < a.2)) →
    ∀ q e caps, pre.length ≤ q →
      eng.matchAt re (pre ++ spliceAt src val.data pos ms) q = some (e, caps) → False := by
  intro ms
  induction ms with
  | nil =>
    intro pos pre _ hpos _ hcov q e caps hq hm
    simp only [spliceAt] at hm
    have hqe := match_nonempty eng re val hnomatch hcf _ q e caps hm
    obtain ⟨-, hb⟩ := eng.matchAt_bounds re _ q e caps hm
    simp only [List.length_append, List.length_drop] at hb
    have hsome := hcf _ q e caps src (pos + (q - pre.length)) hm (by omega) (by
      rw [take_drop_append_right pre _ q _ hq, List.drop_drop])
    cases hm2 : eng.matchAt re src (pos + (q - pre.length)) with
    | none => rw [hm2] at hsome; simp at hsome
    | some r =>
      obtain ⟨e2, c2⟩ := r
      obtain ⟨a, ha, -⟩ := hcov _ e2 c2 (by omega) (by omega) hm2
      simp at ha
  | cons b ms ih =>
    intro pos pre hord hpos hne hcov q e caps hq hm
    obtain ⟨a0, a1⟩ := b
    obtain ⟨h1, h2, h3, h4⟩ := hord
    have hb01 : a0 < a1 := hne (a0, a1) (List.mem_cons_self _ _)
    simp only [spliceAt] at hm
    have hqe := match_nonempty eng re val hnomatch hcf _ q e caps hm
    have hlen : ((src.drop pos).take (a0 - pos)).length = a0 - pos := by
      simp only [List.length_take, List.length_drop]
      omega
    have hW : pre ++ ((src.drop pos).take (a0 - pos) ++ val.data ++ spliceAt src val.data a1 ms) =
        (pre ++ (src.drop pos).take (a0 - pos)) ++ val.data ++ spliceAt src val.data a1 ms := by
      simp [List.append_assoc]
    rcases hiso (pre ++ (src.drop pos).take (a0 - pos)) (spliceAt src val.data a1 ms) q e caps
        (by rw [← hW]; exact hm) with hleft | hright
    · simp only [List.length_append, hlen] at hleft
      have hsome := hcf _ q e caps src (pos + (q - pre.length)) hm (by omega) (by
        rw [take_drop_append_right pre _ q _ hq, List.append_assoc,
          take_drop_append_left _ _ _ _ (by rw [hlen]; omega),
          take_drop_take _ _ _ _ (by omega), List.drop_drop])
      cases hm2 : eng.matchAt re src (pos + (q - pre.length)) with
      | none => rw [hm2] at hsome; simp at hsome
      | some r =>
        obtain ⟨e2, c2⟩ := r
        obtain ⟨a, ha, hc⟩ := hcov _ e2 c2 (by omega) (by omega) hm2
        simp only [List.mem_cons] at ha
        rcases ha with rfl | ha
        · simp only at hc
          omega
        · have := SpansOrdered_mem _ ms a1 h4 a ha
          omega
    · simp only [List.length_append, hlen] at hright
      refine ih a1 ((pre ++ (src.drop pos).take (a0 - pos)) ++ val.data) h4 h3
        (fun a ha => hne a (List.mem_cons_of_mem _ ha)) ?_ q e caps
        (by simp only [List.length_append, hlen]; omega) (by rw [← hW]; exact hm)
      intro p e2 c2 hp1 hp2 hm2
      obtain ⟨a, ha, hc⟩ := hcov p e2 c2 (by omega) hp2 hm2
      simp only [List.mem_cons] at ha
      rcases ha with rfl | ha
      · simp only at hc
        omega
      · exact ⟨a, ha, hc⟩

/-- C6, the claim as stated fails: the replacement text `a` holds no match of
the pattern `ab`, yet on the content `abb` one replacement gives `ab` and a
second one gives `a`; `MakeRegexReplace` run twice on the file writes `ab`,
then `a`. -/
theorem ReplaceAllString_not_idempotent :
    demoEngine.compile "ab" = Except.ok
      (demoPattern [{ atom := Atom.lit 'a', quant := Quant.one },
                    { atom := Atom.lit 'b', quant := Quant.one }]) ∧
    MatchString demoEngine
      (demoPattern [{ atom := Atom.lit 'a', quant := Quant.one },
                    { atom := Atom.lit 'b', quant := Quant.one }]) "a" = false ∧
    ReplaceAllString demoEngine
      (demoPattern [{ atom := Atom.lit 'a', quant := Quant.one },
                    { atom := Atom.lit 'b', quant := Quant.one }]) "abb" "a" = "ab" ∧
    ReplaceAllString demoEngine
      (demoPattern [{ atom := Atom.lit 'a', quant := Quant.one },
                    { atom := Atom.lit 'b', quant := Quant.one }])
      (ReplaceAllString demoEngine
        (demoPattern [{ atom := Atom.lit 'a', quant := Quant.one },
                      { atom := Atom.lit 'b', quant := Quant.one }]) "abb" "a") "a" = "a" ∧
    ReplaceAllString demoEngine
      (demoPattern [{ atom := Atom.lit 'a', quant := Quant.one },
                    { atom := Atom.lit 'b', quant := Quant.one }])
      (ReplaceAllString demoEngine
        (demoPattern [{ atom := Atom.lit 'a', quant := Quant.one },
                      { atom := Atom.lit 'b', quant := Quant.one }]) "abb" "a") "a" ≠
      ReplaceAllString demoEngine
        (demoPattern [{ atom := Atom.lit 'a', quant := Quant.one },
                      { atom := Atom.lit 'b', quant := Quant.one }]) "abb" "a" ∧
    writesOf (MakeRegexReplace (goRegexp demoEngine) simSys demoWrapper "file.go" "ab" "a"
      (MakeRegexReplace (goRegexp demoEngine) simSys demoWrapper "file.go" "ab" "a"
        (demoCloned "abb")).2).2.trace =
      [("/tmp/gh_clone_1/file.go", "ab"), ("/tmp/gh_clone_1/file.go", "a")] := by
  refine ⟨rfl, ?_, ?_, ?_, ?_, ?_⟩ <;> decide

/-- The content `MakeRegexReplace` hands to `ioutil.WriteFile`, once the file
was read and the pattern compiled. -/
theorem MakeRegexReplace_writes {FS : Type} (lib : RegexpLib) (sys : Sys FS) (gh : GitHubWrapper)
    (file regEx valueToUpdate : String) (w : World FS) (content : String) (re : lib.Regexp)
    (hread : sys.readFile w.fs w.cwd (gh.ClonePath ++ "/" ++ file) = Except.ok content)
    (hcompile : lib.compile regEx = Except.ok re) :
    writesOf (MakeRegexReplace lib sys gh file regEx valueToUpdate w).2.trace =
      writesOf w.trace ++
        [(gh.ClonePath ++ "/" ++ file, lib.replaceAllString re content valueToUpdate)] := by
  unfold MakeRegexReplace
  simp only [hread, hcompile]
  rcases hw : sys.writeFile (w.emit [Event.readFile (gh.ClonePath ++ "/" ++ file) true]).fs
      (w.emit [Event.readFile (gh.ClonePath ++ "/" ++ file) true]).cwd
      (gh.ClonePath ++ "/" ++ file) (lib.replaceAllString re content valueToUpdate)
    with ⟨_ | e, fs2⟩ <;>
    simp [hw, World.emit, writesOf_append, writesOf]

/-- C6 as amended: for every matching engine, machine, content, pattern that
compiles and replacement text, if the replacement text holds no match of the
pattern and no `$` that starts a template reference, if whether the pattern
matches at a position depends only on the characters matched, and if no match
of the pattern in any text holds a character of an inserted replacement or
reaches across it, then: one replacement gives the content with every match of
the pattern replaced by the replacement text; that content holds no match of
the pattern; replacing it again gives the same content; and `MakeRegexReplace`
run on the file that holds the content it wrote writes that same content
again. -/
theorem MakeRegexReplace_idempotent {FS : Type} (eng : Engine) (sys : Sys FS)
    (gh : GitHubWrapper) (file regEx val : String) (w w2 : World FS) (re : eng.Regexp)
    (content : String)
    (hcompile : eng.compile regEx = Except.ok re)
    (hread : sys.readFile w.fs w.cwd (gh.ClonePath ++ "/" ++ file) = Except.ok content)
    (hread2 : sys.readFile w2.fs w2.cwd (gh.ClonePath ++ "/" ++ file) =
      Except.ok (ReplaceAllString eng re content val))
    (hnomatch : MatchString eng re val = false)
    (hval : isLiteralTemplate eng.isLetterOrDigit val.data = true)
    (hcf : ContextFree eng re)
    (hiso : Isolated eng re val.data) :
    (∃ ms, IsAllMatches eng re content.data ms ∧
      ReplaceAllString eng re content val = String.mk (spliceAt content.data val.data 0 ms)) ∧
    MatchString eng re (ReplaceAllString eng re content val) = false ∧
    ReplaceAllString eng re (ReplaceAllString eng re content val) val =
      ReplaceAllString eng re content val ∧
    writesOf (MakeRegexReplace (goRegexp eng) sys gh file regEx val w).2.trace =
      writesOf w.trace ++ [(gh.ClonePath ++ "/" ++ file, ReplaceAllString eng re content val)] ∧
    writesOf (MakeRegexReplace (goRegexp eng) sys gh file regEx val w2).2.trace =
      writesOf w2.trace ++ [(gh.ClonePath ++ "/" ++ file, ReplaceAllString eng re content val)] := by
  have hall := matchSpans_isAllMatches eng re content.data
  have hsplice := ReplaceAllString_eq_splice eng re content val hval
  obtain ⟨hord, hmatch, hcov, hstrict⟩ := hall
  have hne : ∀ a ∈ matchSpans eng re content.data, a.1 < a.2 := by
    intro a ha
    obtain ⟨caps, hm⟩ := hmatch a ha
    exact match_nonempty eng re val hnomatch hcf _ _ _ _ hm
  have hcov2 : ∀ p e caps, 0 ≤ p → p ≤ content.data.length →
      eng.matchAt re content.data p = some (e, caps) →
      ∃ a ∈ matchSpans eng re content.data, a.1 = p ∨ (a.1 < p ∧ p < a.2) := by
    intro p e caps _ hp hm
    obtain ⟨a, ha, hc⟩ := hcov p e caps hp hm
    have hpe := match_nonempty eng re val hnomatch hcf _ _ _ _ hm
    refine ⟨a, ha, ?_⟩
    rcases hc with h | h | h
    · exact Or.inl h
    · exact Or.inr h
    · omega
  have hno : ∀ q, eng.matchAt re
      (spliceAt content.data val.data 0 (matchSpans eng re content.data)) q = none := by
    intro q
    cases hm : eng.matchAt re
        (spliceAt content.data val.data 0 (matchSpans eng re content.data)) q with
    | none => rfl
    | some r =>
      obtain ⟨e, caps⟩ := r
      exact absurd (no_match_in_splice eng re content.data val hnomatch hcf hiso _ 0 []
        hord (Nat.zero_le _) hne hcov2 q e caps (Nat.zero_le _) (by simpa using hm)) id
  have hx : doExecute eng re
      (spliceAt content.data val.data 0 (matchSpans eng re content.data)) 0 = none :=
    findFrom_eq_none eng re _ _ _ (fun q _ _ => hno q)
  have htwice : ReplaceAllString eng re (ReplaceAllString eng re content val) val =
      ReplaceAllString eng re content val := by
    rw [hsplice]
    unfold ReplaceAllString replaceAll replaceLoop
    simp [hx]
  refine ⟨⟨_, ⟨hord, hmatch, hcov, hstrict⟩, hsplice⟩, ?_, htwice, ?_, ?_⟩
  · rw [hsplice]
    unfold MatchString
    simp [hx]
  · exact MakeRegexReplace_writes (goRegexp eng) sys gh file regEx val w content re hread hcompile
  · have h2 := MakeRegexReplace_writes (goRegexp eng) sys gh file regEx val w2 _ re hread2
      hcompile
    rw [h2]
    show _ ++ [(_, ReplaceAllString eng re (ReplaceAllString eng re content val) val)] = _
    rw [htwice]

/-- The pattern that is the one literal character `c` matches exactly where
the text holds `c`, and one character long. -/
theorem literal_match (c : Char) (src : List Char) (p e : Nat)
    (caps : List (Option (Nat × Nat)))
    (h : demoEngine.matchAt (demoPattern [{ atom := Atom.lit c, quant := Quant.one }]) src p =
      some (e, caps)) :
    ∃ tl, src.drop p = c :: tl ∧ e = p + 1 := by
  have h2 : fragmentMatchAt { items := [{ atom := Atom.lit c, quant := Quant.one }] } src p =
      some (e, caps) := h
  unfold fragmentMatchAt at h2
  cases hs : src.drop p with
  | nil => simp [hs, matchItems] at h2
  | cons d tl =>
    rw [hs] at h2
    by_cases hd : d = c
    · subst hd
      simp only [matchItems, Atom.test, beq_self_eq_true, if_true, Option.map_some'] at h2
      split at h2
      · simp only [Option.some.injEq, Prod.mk.injEq] at h2
        exact ⟨tl, rfl, by omega⟩
      · simp at h2
    · simp [matchItems, Atom.test, hd] at h2

theorem literal_match_of_char (c : Char) (src tl : List Char) (p : Nat)
    (h : src.drop p = c :: tl) :
    (demoEngine.matchAt (demoPattern [{ atom := Atom.lit c, quant := Quant.one }]) src p).isSome =
      true := by
  show (fragmentMatchAt { items := [{ atom := Atom.lit c, quant := Quant.one }] } src p).isSome =
    true
  have hlen : p + 1 ≤ src.length := by
    have := congrArg List.length h
    simp only [List.length_drop, List.length_cons] at this
    omega
  unfold fragmentMatchAt
  rw [h]
  simp [matchItems, Atom.test, hlen]

theorem literal_contextFree (c : Char) :
    ContextFree demoEngine (demoPattern [{ atom := Atom.lit c, quant := Quant.one }]) := by
  intro s1 p1 e1 caps s2 p2 hm hlen heq
  obtain ⟨tl, hd, he⟩ := literal_match c s1 p1 e1 caps hm
  have hn : e1 - p1 = 1 := by omega
  rw [hn, hd] at heq
  cases hs : s2.drop p2 with
  | nil => rw [hs] at heq; simp at heq
  | cons d tl2 =>
    rw [hs] at heq
    simp only [List.take_succ_cons, List.take_zero, List.cons.injEq, and_true] at heq
    subst heq
    exact literal_match_of_char d s2 tl2 p2 hs

theorem literal_isolated (c : Char) (r : List Char) (hc : c ∉ r) :
    Isolated demoEngine (demoPattern [{ atom := Atom.lit c, quant := Quant.one }]) r := by
  intro x y p e caps hm
  obtain ⟨tl, hd, he⟩ := literal_match c _ p e caps hm
  by_contra hcon
  have h1 : x.length ≤ p := by omega
  have h2 : p - x.length < r.length := by omega
  rw [List.append_assoc, List.drop_append_eq_append_drop, List.drop_eq_nil_of_le h1,
    List.nil_append, List.drop_append_of_le_length (by omega)] at hd
  cases hr : r.drop (p - x.length) with
  | nil =>
    have := congrArg List.length hr
    simp only [List.length_drop, List.length_nil] at this
    omega
  | cons d tl2 =>
    rw [hr] at hd
    simp only [List.cons_append, List.cons.injEq] at hd
    have hmem : d ∈ r := List.mem_of_mem_drop (by rw [hr]; exact List.mem_cons_self _ _)
    rw [hd.1] at hmem
    exact hc hmem

/-- C6 as amended, on the simulated machine: in `banana` every `a` is replaced
by `b`; the pattern `a` matches single characters and `b` holds none of them.
The second call runs in the state the first one left. -/
theorem MakeRegexReplace_idempotent_witness :
    ReplaceAllString demoEngine (demoPattern [{ atom := Atom.lit 'a', quant := Quant.one }]) "banana" "b" = "bbnbnb" ∧
    writesOf (MakeRegexReplace (goRegexp demoEngine) simSys demoWrapper "file.go" "a" "b"
      (MakeRegexReplace (goRegexp demoEngine) simSys demoWrapper "file.go" "a" "b"
        (demoCloned "banana")).2).2.trace =
      [("/tmp/gh_clone_1/file.go", "bbnbnb"), ("/tmp/gh_clone_1/file.go", "bbnbnb")] ∧
    ((∃ ms, IsAllMatches demoEngine (demoPattern [{ atom := Atom.lit 'a', quant := Quant.one }]) "banana".data ms ∧
      ReplaceAllString demoEngine (demoPattern [{ atom := Atom.lit 'a', quant := Quant.one }]) "banana" "b" =
        String.mk (spliceAt "banana".data "b".data 0 ms)) ∧
    MatchString demoEngine (demoPattern [{ atom := Atom.lit 'a', quant := Quant.one }]) (ReplaceAllString demoEngine (demoPattern [{ atom := Atom.lit 'a', quant := Quant.one }]) "banana" "b") = false ∧
    ReplaceAllString demoEngine (demoPattern [{ atom := Atom.lit 'a', quant := Quant.one }]) (ReplaceAllString demoEngine (demoPattern [{ atom := Atom.lit 'a', quant := Quant.one }]) "banana" "b") "b" =
      ReplaceAllString demoEngine (demoPattern [{ atom := Atom.lit 'a', quant := Quant.one }]) "banana" "b" ∧
    writesOf (MakeRegexReplace (goRegexp demoEngine) simSys demoWrapper "file.go" "a" "b"
      (demoCloned "banana")).2.trace =
      writesOf (demoCloned "banana").trace ++
        [(demoWrapper.ClonePath ++ "/" ++ "file.go", ReplaceAllString demoEngine (demoPattern [{ atom := Atom.lit 'a', quant := Quant.one }]) "banana" "b")] ∧
    writesOf (MakeRegexReplace (goRegexp demoEngine) simSys demoWrapper "file.go" "a" "b"
      (MakeRegexReplace (goRegexp demoEngine) simSys demoWrapper "file.go" "a" "b"
        (demoCloned "banana")).2).2.trace =
      writesOf (MakeRegexReplace (goRegexp demoEngine) simSys demoWrapper "file.go" "a" "b"
        (demoCloned "banana")).2.trace ++
        [(demoWrapper.ClonePath ++ "/" ++ "file.go",
          ReplaceAllString demoEngine (demoPattern [{ atom := Atom.lit 'a', quant := Quant.one }]) "banana" "b")]) :=
  ⟨by decide, by decide,
    MakeRegexReplace_idempotent demoEngine simSys demoWrapper "file.go" "a" "b"
      (demoCloned "banana") (MakeRegexReplace (goRegexp demoEngine) simSys demoWrapper "file.go" "a" "b"
        (demoCloned "banana")).2 (demoPattern [{ atom := Atom.lit 'a', quant := Quant.one }]) "banana" rfl rfl rfl
      (by decide) (by decide) (literal_contextFree 'a')
      (literal_isolated 'a' "b".data (by decide))⟩

/-! ### The system calls of a run -/

/-- C4: suppose that whenever the run gets to the replace step, the file
`ClonePath/file` cannot be read there, as when it does not exist. Then the
process exits with status 1, nothing is written, and none of `git add`,
`git commit`, `git push` is started. If the run gets to the replace step,
`MakeRegexReplace` returns the read error there, leaves the filesystem as
checkout left it and makes no call but the failed read, and after the checkout
the trace of the run holds only the failed read of `ClonePath/file` and the
fatal exit. -/
theorem Run_missing_file_no_commit {FS : Type} (lib : RegexpLib) (sys : Sys FS)
    (cfg : Config) (fs : FS) (cwd : String)
    (hmissing : ∀ gh w0 w1 w2,
      NewGitHubWrapper sys cfg.token "SrikanthBhandary" (World.init fs cwd) = ((gh, none), w0) →
      Clone sys gh cfg.githubRepo w0 = (none, w1) →
      Checkout sys gh cfg.branch (w1.emit [Event.stepReturned Step.clone true]) = (none, w2) →
      ∃ e, sys.readFile w2.fs w2.cwd (gh.ClonePath ++ "/" ++ cfg.file) = Except.error e) :
    (Run lib sys cfg (World.init fs cwd)).1 = Outcome.exited 1 ∧
    writesOf (Run lib sys cfg (World.init fs cwd)).2.trace = [] ∧
    ["git", "add", "."] ∉ execsOf (Run lib sys cfg (World.init fs cwd)).2.trace ∧
    ["git", "commit", "-m", "Updated comments in file.go"] ∉ execsOf (Run lib sys cfg (World.init fs cwd)).2.trace ∧
    ["git", "push", "origin", "HEAD"] ∉ execsOf (Run lib sys cfg (World.init fs cwd)).2.trace ∧
    (∀ gh w0 w1 w2,
      NewGitHubWrapper sys cfg.token "SrikanthBhandary" (World.init fs cwd) = ((gh, none), w0) →
      Clone sys gh cfg.githubRepo w0 = (none, w1) →
      Checkout sys gh cfg.branch (w1.emit [Event.stepReturned Step.clone true]) = (none, w2) →
      ∃ e,
        sys.readFile w2.fs w2.cwd (gh.ClonePath ++ "/" ++ cfg.file) = Except.error e ∧
        (MakeRegexReplace lib sys gh cfg.file cfg.regEx cfg.valueToUpdate
            (w2.emit [ Event.stepReturned Step.checkout true,
                       Event.log ("Cloned repository to: " ++ GetClonePath gh) ])).1 =
          some ("error reading file " ++ (gh.ClonePath ++ "/" ++ cfg.file) ++ ": " ++ e) ∧
        (MakeRegexReplace lib sys gh cfg.file cfg.regEx cfg.valueToUpdate
            (w2.emit [ Event.stepReturned Step.checkout true,
                       Event.log ("Cloned repository to: " ++ GetClonePath gh) ])).2.fs = w2.fs ∧
        (MakeRegexReplace lib sys gh cfg.file cfg.regEx cfg.valueToUpdate
            (w2.emit [ Event.stepReturned Step.checkout true,
                       Event.log ("Cloned repository to: " ++ GetClonePath gh) ])).2.trace =
          w2.trace ++
            [ Event.stepReturned Step.checkout true,
              Event.log ("Cloned repository to: " ++ GetClonePath gh),
              Event.readFile (gh.ClonePath ++ "/" ++ cfg.file) false ] ∧
        (Run lib sys cfg (World.init fs cwd)).2.fs = w2.fs ∧
        (Run lib sys cfg (World.init fs cwd)).2.trace = w2.trace ++
          [ Event.stepReturned Step.checkout true,
            Event.log ("Cloned repository to: " ++ GetClonePath gh),
            Event.readFile (gh.ClonePath ++ "/" ++ cfg.file) false,
            Event.stepReturned Step.regexReplace false,
            Event.log ("error reading file " ++ (gh.ClonePath ++ "/" ++ cfg.file) ++ ": " ++ e),
            Event.exit 1 ]) := by
  obtain ⟨-, ne, -, nw, -⟩ :=
    NewGitHubWrapper_frame sys cfg.token "SrikanthBhandary" (World.init fs cwd)
  rcases hN : NewGitHubWrapper sys cfg.token "SrikanthBhandary" (World.init fs cwd)
    with ⟨⟨gh, _ | e0⟩, w0⟩
  all_goals rw [hN] at ne nw
  all_goals simp only [World.init, execsOf, writesOf] at ne nw
  case some =>
    have hrun : Run lib sys cfg (World.init fs cwd) = logFatal e0 w0 := by
      unfold Run
      simp only [hN]
    rw [hrun]
    refine ⟨rfl, ?_, ?_, ?_, ?_, ?_⟩
    · simp [logFatal, World.emit, writesOf_append, writesOf, nw]
    · simp [logFatal, World.emit, execsOf_append, execsOf, ne]
    · simp [logFatal, World.emit, execsOf_append, execsOf, ne]
    · simp [logFatal, World.emit, execsOf_append, execsOf, ne]
    · intro gh2 w02 w12 w22 h0
      simp at h0
  case none =>
    obtain ⟨-, ⟨cx, cxe, cxa⟩, -, cw, -⟩ := Clone_frame sys gh cfg.githubRepo w0
    rcases hC : Clone sys gh cfg.githubRepo w0 with ⟨_ | e1, w1⟩
    all_goals rw [hC] at cxe cw
    all_goals simp only [ne, nw, List.nil_append] at cxe cw
    case some =>
      have hrun : Run lib sys cfg (World.init fs cwd) =
          logFatal e1 (w1.emit [Event.stepReturned Step.clone false]) := by
        unfold Run
        simp only [hN, hC]
      rw [hrun]
      have hcx : ∀ a ∈ cx, a ≠ ["git", "add", "."] ∧
          a ≠ ["git", "commit", "-m", "Updated comments in file.go"] ∧
          a ≠ ["git", "push", "origin", "HEAD"] := by
        intro a ha
        rw [cxa a ha]
        simp [cloneArgv]
      refine ⟨rfl, ?_, ?_, ?_, ?_, ?_⟩
      · simp [logFatal, World.emit, writesOf_append, writesOf, cw]
      · simp only [logFatal, World.emit, execsOf_append, execsOf, cxe, List.append_nil]
        exact fun h => (hcx _ h).1 rfl
      · simp only [logFatal, World.emit, execsOf_append, execsOf, cxe, List.append_nil]
        exact fun h => (hcx _ h).2.1 rfl
      · simp only [logFatal, World.emit, execsOf_append, execsOf, cxe, List.append_nil]
        exact fun h => (hcx _ h).2.2 rfl
      · intro gh2 w02 w12 w22 h0 h1
        simp only [Prod.mk.injEq, and_true] at h0
        obtain ⟨rfl, rfl⟩ := h0
        rw [hC] at h1
        simp at h1
    case none =>
      obtain ⟨-, ⟨kx, kxe, kxa⟩, -, kw, -⟩ :=
        Checkout_frame sys gh cfg.branch (w1.emit [Event.stepReturned Step.clone true])
      rcases hK : Checkout sys gh cfg.branch (w1.emit [Event.stepReturned Step.clone true])
        with ⟨_ | e2, w2⟩
      all_goals rw [hK] at kxe kw
      all_goals simp only [World.emit, execsOf_append, writesOf_append, execsOf, writesOf,
        cxe, cw, List.append_nil] at kxe kw
      all_goals
        have hx : ∀ a ∈ cx ++ kx, a ≠ ["git", "add", "."] ∧
            a ≠ ["git", "commit", "-m", "Updated comments in file.go"] ∧
            a ≠ ["git", "push", "origin", "HEAD"] := by
          intro a ha
          rcases List.mem_append.mp ha with h | h
          · rw [cxa a h]
            simp [cloneArgv]
          · rw [kxa a h]
            simp
      case some =>
        have hrun : Run lib sys cfg (World.init fs cwd) =
            logFatal e2 (w2.emit [Event.stepReturned Step.checkout false]) := by
          unfold Run
          simp only [hN, hC, hK]
        rw [hrun]
        refine ⟨rfl, ?_, ?_, ?_, ?_, ?_⟩
        · simp [logFatal, World.emit, writesOf_append, writesOf, kw]
        · simp only [logFatal, World.emit, execsOf_append, execsOf, kxe, List.append_nil]
          exact fun h => (hx _ h).1 rfl
        · simp only [logFatal, World.emit, execsOf_append, execsOf, kxe, List.append_nil]
          exact fun h => (hx _ h).2.1 rfl
        · simp only [logFatal, World.emit, execsOf_append, execsOf, kxe, List.append_nil]
          exact fun h => (hx _ h).2.2 rfl
        · intro gh2 w02 w12 w22 h0 h1 h2
          simp only [Prod.mk.injEq, and_true] at h0
          obtain ⟨rfl, rfl⟩ := h0
          rw [hC] at h1
          simp only [Prod.mk.injEq, true_and] at h1
          subst h1
          rw [hK] at h2
          simp at h2
      case none =>
        obtain ⟨e, he⟩ := hmissing gh w0 w1 w2 hN hC hK
        have hrun : Run lib sys cfg (World.init fs cwd) =
            logFatal ("error reading file " ++ (gh.ClonePath ++ "/" ++ cfg.file) ++ ": " ++ e)
              (((w2.emit [ Event.stepReturned Step.checkout true,
                           Event.log ("Cloned repository to: " ++ GetClonePath gh) ]).emit
                  [Event.readFile (gh.ClonePath ++ "/" ++ cfg.file) false]).emit
                [Event.stepReturned Step.regexReplace false]) := by
          unfold Run
          simp only [hN, hC, hK]
          simp only [MakeRegexReplace, World.emit, he]
        rw [hrun]
        refine ⟨rfl, ?_, ?_, ?_, ?_, ?_⟩
        · simp [logFatal, World.emit, writesOf_append, writesOf, kw]
        · simp only [logFatal, World.emit, execsOf_append, execsOf, kxe, List.append_nil]
          exact fun h => (hx _ h).1 rfl
        · simp only [logFatal, World.emit, execsOf_append, execsOf, kxe, List.append_nil]
          exact fun h => (hx _ h).2.1 rfl
        · simp only [logFatal, World.emit, execsOf_append, execsOf, kxe, List.append_nil]
          exact fun h => (hx _ h).2.2 rfl
        · intro gh2 w02 w12 w22 h0 h1 h2
          simp only [Prod.mk.injEq, and_true] at h0
          obtain ⟨rfl, rfl⟩ := h0
          rw [hC] at h1
          simp only [Prod.mk.injEq, true_and] at h1
          subst h1
          rw [hK] at h2
          simp only [Prod.mk.injEq, true_and] at h2
          subst h2
          refine ⟨e, he, ?_, ?_, ?_, ?_, ?_⟩
          · simp [MakeRegexReplace, World.emit, he]
          · simp [MakeRegexReplace, World.emit, he]
          · simp [MakeRegexReplace, World.emit, he]
          · simp [logFatal, World.emit]
          · simp [logFatal, World.emit]

/-- C4 on the simulated machine: the repository has no `missing.go`. -/
theorem Run_missing_file_no_commit_witness :
    (∃ gh w0 w1 w2,
      NewGitHubWrapper simSys ({ demoConfig with file := "missing.go" } : Config).token "SrikanthBhandary" (World.init demoFS "/home/user") =
        ((gh, none), w0) ∧
      Clone simSys gh ({ demoConfig with file := "missing.go" } : Config).githubRepo w0 = (none, w1) ∧
      Checkout simSys gh ({ demoConfig with file := "missing.go" } : Config).branch (w1.emit [Event.stepReturned Step.clone true]) = (none, w2) ∧
      gh.ClonePath ++ "/" ++ ({ demoConfig with file := "missing.go" } : Config).file = "/tmp/gh_clone_1/missing.go" ∧
      (simSys.readFile w2.fs w2.cwd "/tmp/gh_clone_1/missing.go").toOption = none) ∧
    (Run (goRegexp demoEngine) simSys { demoConfig with file := "missing.go" }
      (World.init demoFS "/home/user")).1 = Outcome.exited 1 ∧
    writesOf (Run (goRegexp demoEngine) simSys { demoConfig with file := "missing.go" }
      (World.init demoFS "/home/user")).2.trace = [] ∧
    ["git", "add", "."] ∉ execsOf (Run (goRegexp demoEngine) simSys { demoConfig with file := "missing.go" }
      (World.init demoFS "/home/user")).2.trace ∧
    ["git", "commit", "-m", "Updated comments in file.go"] ∉ execsOf (Run (goRegexp demoEngine) simSys { demoConfig with file := "missing.go" }
      (World.init demoFS "/home/user")).2.trace ∧
    ["git", "push", "origin", "HEAD"] ∉ execsOf (Run (goRegexp demoEngine) simSys { demoConfig with file := "missing.go" }
      (World.init demoFS "/home/user")).2.trace ∧
    (∀ gh w0 w1 w2,
      NewGitHubWrapper simSys ({ demoConfig with file := "missing.go" } : Config).token "SrikanthBhandary" (World.init demoFS "/home/user") =
        ((gh, none), w0) →
      Clone simSys gh ({ demoConfig with file := "missing.go" } : Config).githubRepo w0 = (none, w1) →
      Checkout simSys gh ({ demoConfig with file := "missing.go" } : Config).branch (w1.emit [Event.stepReturned Step.clone true]) = (none, w2) →
      ∃ e,
        simSys.readFile w2.fs w2.cwd (gh.ClonePath ++ "/" ++ ({ demoConfig with file := "missing.go" } : Config).file) = Except.error e ∧
        (MakeRegexReplace (goRegexp demoEngine) simSys gh ({ demoConfig with file := "missing.go" } : Config).file ({ demoConfig with file := "missing.go" } : Config).regEx ({ demoConfig with file := "missing.go" } : Config).valueToUpdate
            (w2.emit [ Event.stepReturned Step.checkout true,
                       Event.log ("Cloned repository to: " ++ GetClonePath gh) ])).1 =
          some ("error reading file " ++ (gh.ClonePath ++ "/" ++ ({ demoConfig with file := "missing.go" } : Config).file) ++ ": " ++ e) ∧
        (MakeRegexReplace (goRegexp demoEngine) simSys gh ({ demoConfig with file := "missing.go" } : Config).file ({ demoConfig with file := "missing.go" } : Config).regEx ({ demoConfig with file := "missing.go" } : Config).valueToUpdate
            (w2.emit [ Event.stepReturned Step.checkout true,
                       Event.log ("Cloned repository to: " ++ GetClonePath gh) ])).2.fs = w2.fs ∧
        (MakeRegexReplace (goRegexp demoEngine) simSys gh ({ demoConfig with file := "missing.go" } : Config).file ({ demoConfig with file := "missing.go" } : Config).regEx ({ demoConfig with file := "missing.go" } : Config).valueToUpdate
            (w2.emit [ Event.stepReturned Step.checkout true,
                       Event.log ("Cloned repository to: " ++ GetClonePath gh) ])).2.trace =
          w2.trace ++
            [ Event.stepReturned Step.checkout true,
              Event.log ("Cloned repository to: " ++ GetClonePath gh),
              Event.readFile (gh.ClonePath ++ "/" ++ ({ demoConfig with file := "missing.go" } : Config).file) false ] ∧
        (Run (goRegexp demoEngine) simSys { demoConfig with file := "missing.go" }
      (World.init demoFS "/home/user")).2.fs = w2.fs ∧
        (Run (goRegexp demoEngine) simSys { demoConfig with file := "missing.go" }
      (World.init demoFS "/home/user")).2.trace = w2.trace ++
          [ Event.stepReturned Step.checkout true,
            Event.log ("Cloned repository to: " ++ GetClonePath gh),
            Event.readFile (gh.ClonePath ++ "/" ++ ({ demoConfig with file := "missing.go" } : Config).file) false,
            Event.stepReturned Step.regexReplace false,
            Event.log ("error reading file " ++ (gh.ClonePath ++ "/" ++ ({ demoConfig with file := "missing.go" } : Config).file) ++ ": " ++ e),
            Event.exit 1 ]) :=
  ⟨⟨_, _, _, _, rfl, rfl, rfl, rfl, rfl⟩,
   Run_missing_file_no_commit (goRegexp demoEngine) simSys { demoConfig with file := "missing.go" }
    demoFS "/home/user" (by
      intro gh w0 w1 w2 h0 h1 h2
      have hg : gh = _ := (congrArg (fun x => x.1.1) h0).symm
      have hw0 : w0 = _ := (congrArg (fun x => x.2) h0).symm
      subst hg hw0
      have hw1 : w1 = _ := (congrArg (fun x => x.2) h1).symm
      subst hw1
      have hw2 : w2 = _ := (congrArg (fun x => x.2) h2).symm
      subst hw2
      exact ⟨_, rfl⟩)⟩

end GithubEditor
